import Mathlib

/-!
Shallow embedding of `nemo/collections/common/parts/preprocessing/manifest.py`.

The Python module has three pieces of core logic:
  * `get_full_path` — the path resolver;
  * `__parse_item` — the default record normalizer (modelled here as
    `parse_entry`, operating on the dictionary produced by `json.loads`,
    and `parse_item`, operating on the raw line);
  * `item_iter` — the manifest reader (modelled as `runLines`/`runFiles`/
    `item_iter`).

External collaborators that are not part of this repository's source
(`json.loads`, the filesystem, `os.path.expanduser`'s user database,
`DataStoreObject`, `is_datastore_path`, `datastore_path_to_local_path`)
are modelled as components of an abstract environment `Env`, per the
spec's description of them as external interfaces.

Python `pathlib.PurePosixPath` string normalization (collapsing repeated
separators, dropping `.` components and trailing separators, keeping a
`//` double-slash root) is modelled on `List Char` so that its algebra
is provable by structural induction.  JSON atoms are modelled by `JVal`
(numbers as `Int`; values are only ever passed through, never computed
with, so the numeric carrier is irrelevant to every claim).  Python
dictionaries are modelled as association lists with first-key lookup,
replace-first update and erase; JSON objects have pairwise-distinct
keys, on which these operations agree with Python `dict` semantics.
-/

/-- A JSON atom, as produced by `json.loads` for a field value. -/
inductive JVal where
  | jnull : JVal
  | jbool : Bool → JVal
  | jnum : Int → JVal
  | jstr : String → JVal
deriving DecidableEq, Repr

open JVal

/-- A decoded JSON object (Python `dict`), as an association list. -/
abbrev Dict := List (String × JVal)

/-- Python `d[k]` / `k in d` lookup: first binding of `k`. -/
def dget : Dict → String → Option JVal
  | [], _ => none
  | (k, v) :: t, key => if k = key then some v else dget t key

/-- Python `k in d`. -/
def dmem (d : Dict) (k : String) : Bool := (dget d k).isSome

/-- Python `d.get(k, dflt)` (and `d[k]` where the key is known present). -/
def dgetD (d : Dict) (k : String) (dflt : JVal) : JVal := (dget d k).getD dflt

/-- Python `d[k] = v`: replace the binding in place, else append. -/
def dset : Dict → String → JVal → Dict
  | [], k, v => [(k, v)]
  | (k', v') :: t, k, v => if k' = k then (k, v) :: t else (k', v') :: dset t k v

/-- Python `d.pop(k)`'s removal effect (keys of a `dict` are unique). -/
def derase (d : Dict) (k : String) : Dict := d.filter (fun p => decide (p.1 ≠ k))

/-! ### POSIX path strings (`pathlib.PurePosixPath` / `os.path`) -/

/-- Split a character list at `'/'` separators (like `str.split('/')`). -/
def splitSlash : List Char → List (List Char)
  | [] => [[]]
  | c :: t =>
    if c = '/' then [] :: splitSlash t
    else
      match splitSlash t with
      | [] => [[c]]
      | h :: r => (c :: h) :: r

/-- The non-empty, non-`"."` components of a path, in order
(`PurePosixPath._parse_parts` keeps exactly these). -/
def compsL (l : List Char) : List (List Char) :=
  (splitSlash l).filter (fun c => decide (c ≠ [] ∧ c ≠ ['.']))

/-- The root of a POSIX path string: `""`, `"/"`, or the special
double-slash root `"//"` (exactly two leading slashes). -/
def rootL (l : List Char) : List Char :=
  match l with
  | [] => []
  | c :: t =>
    if c = '/' then
      match t with
      | [] => ['/']
      | c2 :: t2 =>
        if c2 = '/' then
          match t2 with
          | [] => ['/', '/']
          | c3 :: _ => if c3 = '/' then ['/'] else ['/', '/']
        else ['/']
    else []

/-- Join components with `'/'` separators. -/
def joinSlash : List (List Char) → List Char
  | [] => []
  | [c] => c
  | c :: cs => c ++ '/' :: joinSlash cs

/-- `str(PurePosixPath(s))` on character lists: root plus filtered
components, or `"."` for an empty path. -/
def pathNormL (l : List Char) : List Char :=
  let cs := compsL l
  if cs = [] then (if rootL l = [] then ['.'] else rootL l)
  else rootL l ++ joinSlash cs

/-- `str(PurePosixPath(s))`. -/
def pathNorm (s : String) : String := String.mk (pathNormL s.data)

/-- Does the character list start with `'/'`? -/
def isAbsL : List Char → Bool
  | [] => false
  | c :: _ => decide (c = '/')

/-- `PurePosixPath.is_absolute()` (equivalently, the string starts with `'/'`). -/
def isAbs (s : String) : Bool := isAbsL s.data

/-- Strip all trailing `'/'` characters (`str.rstrip('/')`). -/
def dropTrailingSlashes (l : List Char) : List Char :=
  (l.reverse.dropWhile (fun c => decide (c = '/'))).reverse

/-- Does the string end with `'/'`? (used by `os.path.join`). -/
def endsSlash (a : String) : Bool := decide (a.data.getLast? = some '/')

/-- `os.path.join(a, b)` for POSIX (`b` absolute replaces `a`). -/
def osJoin (a b : String) : String :=
  if isAbs b then b
  else if a = "" ∨ endsSlash a then a ++ b
  else a ++ "/" ++ b

/-- `os.path.dirname(p)` for POSIX: the prefix up to the last `'/'`,
with trailing slashes stripped unless the prefix is all slashes. -/
def osDirname (p : String) : String :=
  let tailLen := (p.data.reverse.takeWhile (fun c => decide (c ≠ '/'))).length
  let head := p.data.take (p.data.length - tailLen)
  if head ≠ [] ∧ ¬ (∀ c ∈ head, c = '/') then String.mk (dropTrailingSlashes head)
  else String.mk head

/-- `Path(p).parent.as_posix()`: drop the last component of the
normalized path (`'.'` or the bare root if nothing remains). -/
def parentAsPosix (p : String) : String :=
  let cs := (compsL p.data).dropLast
  let r := rootL p.data
  if cs = [] then (if r = [] then "." else String.mk r)
  else String.mk (r ++ joinSlash cs)

/-! ### The external environment -/

/-- The world outside the repository's source: the filesystem, the JSON
decoder, the object-store collaborators and the user database, per the
spec's external-interface section. -/
structure Env where
  /-- `Path(p).is_file()` on a normalized path string. -/
  isFile : String → Bool
  /-- collaborator `is_datastore_path`. -/
  isDatastorePath : String → Bool
  /-- collaborator `datastore_path_to_local_path`. -/
  datastoreLocal : String → String
  /-- collaborator `DataStoreObject(mf).get()`. -/
  fetchManifest : String → String
  /-- the user database consulted by `os.path.expanduser`; the key `""`
  denotes the current user (`$HOME`), `none` means lookup failure. -/
  userHome : String → Option String
  /-- `os.getcwd()`. -/
  cwd : String
  /-- read a whole text file (`open(p).read()`), `none` on I/O failure. -/
  readFile : String → Option String
  /-- the lines of an opened local file, newline-stripped payloads. -/
  fileLines : String → List String
  /-- `json.loads` restricted to object results; `none` on a decode error. -/
  jsonParse : String → Option Dict

/-- `userhome.rstrip('/') + path[i:]`, with an empty result becoming
`"/"` (the `or '/'` in `os.path.expanduser`). -/
def expandResult (hd tl : List Char) : List Char :=
  let r := dropTrailingSlashes hd ++ tl
  if r = [] then ['/'] else r

/-- `os.path.expanduser` on character lists: a leading `'~'`-component
names a user; an unknown user leaves the path alone; a known user's home
(with trailing slashes stripped) replaces the component. -/
def expanduserL (env : Env) (l : List Char) : List Char :=
  match l with
  | [] => []
  | c :: rest =>
    if c = '~' then
      match env.userHome (String.mk (rest.takeWhile (fun x => decide (x ≠ '/')))) with
      | none => c :: rest
      | some h => expandResult h.data (rest.dropWhile (fun x => decide (x ≠ '/')))
    else c :: rest

/-- `os.path.expanduser`. -/
def expanduser (env : Env) (s : String) : String := String.mk (expanduserL env s.data)

/-- `str(Path(p).absolute())`: prepend `os.getcwd()`'s parts when the
path is relative (`pathlib` recombines parts, it does not concatenate
strings, hence the explicit root/component build). -/
def absoluteStr (env : Env) (p : String) : String :=
  if isAbs p then p
  else
    let cs := compsL env.cwd.data ++ compsL p.data
    let r := rootL env.cwd.data
    if cs = [] then (if r = [] then "." else String.mk r)
    else String.mk (r ++ joinSlash cs)

/-- `get_full_path(audio_file, manifest_file, audio_file_len_limit)` from
`manifest.py` (the spec's `resolve`).  `audio_file` is first converted to
a `Path` (hence normalized); the manifest directory is derived by string
splitting for object-store manifests and by `Path.parent` otherwise; a
short, non-existing, relative candidate is joined onto the manifest
directory (with object-store cache substitution) and returned in absolute
form when the joined file exists; every other return applies
`os.path.expanduser` to the (normalized) candidate. -/
def get_full_path (env : Env) (audio_file manifest_file : String)
    (audio_file_len_limit : Nat) : String :=
  let af := pathNorm audio_file
  let manifest_dir :=
    if env.isDatastorePath manifest_file then osDirname manifest_file
    else parentAsPosix manifest_file
  if af.length < audio_file_len_limit ∧ env.isFile af = false ∧ isAbs af = false then
    let p0 := osJoin manifest_dir af
    let p1 := if env.isDatastorePath p0 then env.datastoreLocal p0 else p0
    let p2 := pathNorm p1
    if env.isFile p2 then absoluteStr env p2 else expanduser env af
  else expanduser env af

/-! ### The default normalizer `__parse_item` -/

/-- The errors surfaced by the normalizer: a JSON decode failure
(`json.JSONDecodeError`), the two `ValueError`s raised by
`__parse_item` (the spec's `SchemaError`), a Python `TypeError` from
handing a non-string value to `Path(...)`, and an I/O failure. -/
inductive PErr where
  | parseError : String → PErr
  | schemaError : String → PErr
  | typeError : String → PErr
  | ioError : String → PErr
deriving DecidableEq, Repr

/-- The exact message of the audio-key `ValueError` in `__parse_item`. -/
def audioKeyMsg (mf line : String) : String :=
  "Manifest file " ++ mf ++ " has invalid json line structure: " ++ line
    ++ " without proper audio file key."

/-- The exact message of the duration `ValueError` in `__parse_item`. -/
def durationKeyMsg (mf line : String) : String :=
  "Manifest file " ++ mf ++ " has invalid json line structure: " ++ line
    ++ " without proper duration key."

/-- The audio-alias block of `__parse_item`: `audio_filename`, then
`audio_filepath`, is popped into `audio_file`; failing those, an
existing `audio_file` key is kept; otherwise a `ValueError`. -/
def resolveAudio (e : Dict) (mf line : String) : Except PErr Dict :=
  if dmem e "audio_filename" then
    .ok (dset (derase e "audio_filename") "audio_file" (dgetD e "audio_filename" jnull))
  else if dmem e "audio_filepath" then
    .ok (dset (derase e "audio_filepath") "audio_file" (dgetD e "audio_filepath" jnull))
  else if dmem e "audio_file" = false then
    .error (.schemaError (audioKeyMsg mf line))
  else .ok e

/-- `f.read().replace('\n', '')` (text-mode reading already translated
`'\r'` and `"\r\n"` to `'\n'`, so this removes every newline). -/
def stripNewlines (s : String) : String :=
  String.mk (s.data.filter (fun c => decide (c ≠ '\n')))

/-- The text block of `__parse_item`: `text` as-is, else the contents of
`text_filepath` with newlines removed, else `normalized_text`, else `""`. -/
def textStep (env : Env) (d : Dict) : Except PErr Dict :=
  if dmem d "text" then .ok d
  else if dmem d "text_filepath" then
    match dgetD d "text_filepath" jnull with
    | jstr fp =>
      match env.readFile fp with
      | some content => .ok (dset (derase d "text_filepath") "text" (jstr (stripNewlines content)))
      | none => .error (.ioError fp)
    | _ => .error (.typeError "text_filepath")
  else if dmem d "normalized_text" then .ok (dset d "text" (dgetD d "normalized_text" jnull))
  else .ok (dset d "text" (jstr ""))

/-- The shared shape of the `rttm_file` and `feature_file` alias blocks:
keep the canonical key, else pop `k1`, else pop `k2`, else set `None`. -/
def aliasStep (d : Dict) (canonical k1 k2 : String) : Dict :=
  if dmem d canonical then d
  else if dmem d k1 then dset (derase d k1) canonical (dgetD d k1 jnull)
  else if dmem d k2 then dset (derase d k2) canonical (dgetD d k2 jnull)
  else dset d canonical jnull

/-- `if item[key] is not None: item[key] = get_full_path(item[key], ...)`;
a non-`None`, non-string value would reach `Path(...)` and fail. -/
def pathify (env : Env) (d : Dict) (key mf : String) : Except PErr Dict :=
  match dgetD d key jnull with
  | jnull => .ok d
  | jstr s => .ok (dset d key (jstr (get_full_path env s mf 255)))
  | _ => .error (.typeError key)

/-- `if 'is_valid' in item: item['is_valid'] = item.pop('is_valid')`. -/
def isValidStep (d : Dict) : Dict :=
  if dmem d "is_valid" then dset (derase d "is_valid") "is_valid" (dgetD d "is_valid" jnull)
  else d

/-- The final `dict(...)` literal of `__parse_item`: the canonical
record shape, with `dict.get`-style `None` defaults. -/
def mkCanonical (d : Dict) : Dict :=
  [("audio_file", dgetD d "audio_file" jnull),
   ("duration", dgetD d "duration" jnull),
   ("text", dgetD d "text" jnull),
   ("rttm_file", dgetD d "rttm_file" jnull),
   ("feature_file", dgetD d "feature_file" jnull),
   ("offset", dgetD d "offset" jnull),
   ("speaker", dgetD d "speaker" jnull),
   ("orig_sr", dgetD d "orig_sample_rate" jnull),
   ("token_labels", dgetD d "token_labels" jnull),
   ("lang", dgetD d "lang" jnull),
   ("is_valid", dgetD d "is_valid" jnull)]

/-- `__parse_item` after `json.loads`: the audio block, path resolution
of the audio file (a non-string value makes `Path(...)` fail), the
duration check, the text block, the `rttm`/`feature` alias blocks with
path resolution, the `is_valid` shuffle, and the canonical `dict` literal. -/
def parse_entry (env : Env) (e : Dict) (mf line : String) : Except PErr Dict :=
  match resolveAudio e mf line with
  | .error er => .error er
  | .ok e1 =>
    match dgetD e1 "audio_file" jnull with
    | jstr s =>
      let e2 := dset e1 "audio_file" (jstr (get_full_path env s mf 255))
      if dmem e2 "duration" = false then .error (.schemaError (durationKeyMsg mf line))
      else
        match textStep env e2 with
        | .error er => .error er
        | .ok e3 =>
          match pathify env (aliasStep e3 "rttm_file" "rttm_filename" "rttm_filepath") "rttm_file" mf with
          | .error er => .error er
          | .ok e4 =>
            match pathify env (aliasStep e4 "feature_file" "feature_filename" "feature_filepath") "feature_file" mf with
            | .error er => .error er
            | .ok e5 => .ok (mkCanonical (isValidStep e5))
    | _ => .error (.typeError "audio_file")

/-- `__parse_item` on a raw line: `json.loads`, then `parse_entry`. -/
def parse_item (env : Env) (line mf : String) : Except PErr Dict :=
  match env.jsonParse line with
  | none => .error (.parseError line)
  | some e => parse_entry env e mf line

/-! ### The reader `item_iter` -/

/-- The inner loop of `item_iter` over one file's lines: `k += 1`, parse
(a failure aborts the whole read), `item['id'] = k`, yield. -/
def runLines (env : Env) (mf : String) : Nat → List String → Except PErr (List Dict)
  | _, [] => .ok []
  | k, line :: rest =>
    match parse_item env line mf with
    | .error er => .error er
    | .ok d =>
      match runLines env mf (k + 1) rest with
      | .error er => .error er
      | .ok ds => .ok (dset d "id" (jnum (Int.ofNat k)) :: ds)

/-- The outer loop of `item_iter`: fetch each manifest locally, open the
`expanduser`-ed cached copy, and stream its lines with the running
counter; the original manifest location is what reaches the parser. -/
def runFiles (env : Env) : Nat → List String → Except PErr (List Dict)
  | _, [] => .ok []
  | k, f :: rest =>
    let lines := env.fileLines (expanduser env (env.fetchManifest f))
    match runLines env f k lines with
    | .error er => .error er
    | .ok ds =>
      match runFiles env (k + lines.length) rest with
      | .error er => .error er
      | .ok ds2 => .ok (ds ++ ds2)

/-- `item_iter` with the default parse function, over a list of manifest
files, as the finite sequence it yields (or the error aborting it). -/
def item_iter (env : Env) (files : List String) : Except PErr (List Dict) :=
  runFiles env 0 files

/-- Total number of input lines across all files, in order. -/
def totalLines (env : Env) (files : List String) : Nat :=
  (files.map (fun f => (env.fileLines (expanduser env (env.fetchManifest f))).length)).sum

/-- Declarative "first present key wins" resolution over an ordered
alias list, the spec's description of the alias table. -/
def firstKey (e : Dict) : List String → Option (String × JVal)
  | [] => none
  | k :: ks =>
    match dget e k with
    | some v => some (k, v)
    | none => firstKey e ks

/-- The ordered audio-path alias list stated by the spec. -/
def audioAliases : List String := ["audio_filename", "audio_filepath", "audio_file"]

/-- The canonical key set of a produced record, in construction order
(the reader appends `id`). -/
def canonKeys : List String :=
  ["audio_file", "duration", "text", "rttm_file", "feature_file", "offset",
   "speaker", "orig_sr", "token_labels", "lang", "is_valid"]

/-! ### Dictionary lemmas -/

theorem dget_dset_self (d : Dict) (k : String) (v : JVal) :
    dget (dset d k v) k = some v := by
  induction d with
  | nil => simp [dget, dset]
  | cons p t ih =>
    by_cases h : p.1 = k
    · simp [dset, h, dget]
    · simp [dset, h, dget, ih]

theorem dget_dset_ne (d : Dict) (k k' : String) (v : JVal) (h : k' ≠ k) :
    dget (dset d k v) k' = dget d k' := by
  induction d with
  | nil =>
    show dget [(k, v)] k' = none
    simp [dget, Ne.symm h]
  | cons p t ih =>
    obtain ⟨pk, pv⟩ := p
    show dget (if pk = k then (k, v) :: t else (pk, pv) :: dset t k v) k' = _
    by_cases hp : pk = k
    · rw [if_pos hp]
      show (if k = k' then some v else dget t k') = if pk = k' then some pv else dget t k'
      rw [if_neg (Ne.symm h), if_neg (by rw [hp]; exact Ne.symm h)]
    · rw [if_neg hp]
      show (if pk = k' then some pv else dget (dset t k v) k') = if pk = k' then some pv else dget t k'
      rw [ih]

theorem dget_derase_ne (d : Dict) (k k' : String) (h : k' ≠ k) :
    dget (derase d k) k' = dget d k' := by
  induction d with
  | nil => rfl
  | cons p t ih =>
    obtain ⟨pk, pv⟩ := p
    simp only [derase, List.filter_cons]
    by_cases hp : pk = k
    · rw [if_neg (by simp [hp])]
      show dget (derase t k) k' = _
      rw [ih]
      show dget t k' = if pk = k' then some pv else dget t k'
      rw [if_neg (by rw [hp]; exact Ne.symm h)]
    · rw [if_pos (by simp [hp])]
      show (if pk = k' then some pv else dget (derase t k) k') = if pk = k' then some pv else dget t k'
      rw [ih]

theorem dget_derase_self (d : Dict) (k : String) :
    dget (derase d k) k = none := by
  induction d with
  | nil => rfl
  | cons p t ih =>
    obtain ⟨pk, pv⟩ := p
    simp only [derase, List.filter_cons]
    by_cases hp : pk = k
    · rw [if_neg (by simp [hp])]
      exact ih
    · rw [if_pos (by simp [hp])]
      show (if pk = k then some pv else dget (derase t k) k) = none
      rw [if_neg hp]
      exact ih

theorem dmem_eq_false_iff (d : Dict) (k : String) :
    dmem d k = false ↔ dget d k = none := by
  simp [dmem, Option.isSome]
  match h : dget d k with
  | none => simp
  | some v => simp

theorem keys_dset_of_not_mem (d : Dict) (k : String) (v : JVal)
    (h : dmem d k = false) :
    (dset d k v).map Prod.fst = d.map Prod.fst ++ [k] := by
  induction d with
  | nil => simp [dset]
  | cons p t ih =>
    by_cases hp : p.1 = k
    · rw [dmem_eq_false_iff] at h
      simp [dget, hp] at h
    · have ht : dmem t k = false := by
        rw [dmem_eq_false_iff] at h ⊢
        simpa [dget, hp] using h
      simp [dset, hp, ih ht]

/-! ### Path normalization algebra -/

/-- A component kept by `PurePosixPath`: non-empty, not `"."`, slash-free. -/
def validComp (c : List Char) : Prop := c ≠ [] ∧ c ≠ ['.'] ∧ '/' ∉ c

theorem splitSlash_ne_nil (l : List Char) : splitSlash l ≠ [] := by
  cases l with
  | nil => simp [splitSlash]
  | cons c t =>
    simp only [splitSlash]
    by_cases h : c = '/'
    · simp [h]
    · rw [if_neg h]
      match hs : splitSlash t with
      | [] => simp
      | h' :: r => simp

theorem not_slash_mem_splitSlash {l : List Char} {c : List Char}
    (hc : c ∈ splitSlash l) : '/' ∉ c := by
  induction l generalizing c with
  | nil =>
    simp [splitSlash] at hc
    simp [hc]
  | cons a t ih =>
    simp only [splitSlash] at hc
    by_cases ha : a = '/'
    · rw [if_pos ha] at hc
      rcases List.mem_cons.mp hc with h | h
      · simp [h]
      · exact ih h
    · rw [if_neg ha] at hc
      match hs : splitSlash t with
      | [] => exact absurd hs (splitSlash_ne_nil t)
      | h' :: r =>
        rw [hs] at hc
        rcases List.mem_cons.mp hc with h | h
        · subst h
          intro hm
          rcases List.mem_cons.mp hm with h | h
          · exact ha h.symm
          · exact ih (hs ▸ List.mem_cons_self h' r) h
        · exact ih (hs ▸ List.mem_cons.mpr (Or.inr h))

theorem splitSlash_slash (l : List Char) : splitSlash ('/' :: l) = [] :: splitSlash l := by
  simp [splitSlash]

theorem splitSlash_cons_append {c l : List Char} {h : List Char} {t : List (List Char)}
    (hc : '/' ∉ c) (hl : splitSlash l = h :: t) :
    splitSlash (c ++ l) = (c ++ h) :: t := by
  induction c with
  | nil => simpa using hl
  | cons a c' ih =>
    have ha : a ≠ '/' := fun h' => hc (h' ▸ List.mem_cons_self a c')
    have hc' : '/' ∉ c' := fun h' => hc (List.mem_cons.mpr (Or.inr h'))
    simp only [List.cons_append, splitSlash, if_neg ha, List.append_eq, ih hc']

theorem splitSlash_no_slash {c : List Char} (hc : '/' ∉ c) : splitSlash c = [c] := by
  have := splitSlash_cons_append (l := []) (h := []) (t := []) hc (by simp [splitSlash])
  simpa using this

theorem joinSlash_cons (c : List Char) (cs : List (List Char)) (h : cs ≠ []) :
    joinSlash (c :: cs) = c ++ '/' :: joinSlash cs := by
  match cs with
  | [] => exact absurd rfl h
  | c' :: cs' => rfl

theorem joinSlash_ne_nil {cs : List (List Char)} (h : cs ≠ [])
    (hv : ∀ c ∈ cs, c ≠ []) : joinSlash cs ≠ [] := by
  match cs with
  | [] => exact absurd rfl h
  | [c] =>
    show c ≠ []
    exact hv c (by simp)
  | c :: c' :: cs' =>
    show c ++ '/' :: joinSlash (c' :: cs') ≠ []
    simp

theorem splitSlash_joinSlash {cs : List (List Char)} (h : cs ≠ [])
    (hv : ∀ c ∈ cs, '/' ∉ c) : splitSlash (joinSlash cs) = cs := by
  induction cs with
  | nil => exact absurd rfl h
  | cons c cs' ih =>
    match cs' with
    | [] =>
      show splitSlash c = [c]
      exact splitSlash_no_slash (hv c (by simp))
    | c' :: cs'' =>
      have hrec : splitSlash (joinSlash (c' :: cs'')) = c' :: cs'' :=
        ih (by simp) (fun x hx => hv x (List.mem_cons.mpr (Or.inr hx)))
      show splitSlash (c ++ '/' :: joinSlash (c' :: cs'')) = c :: c' :: cs''
      rw [splitSlash_cons_append (hv c (by simp))
        (by rw [splitSlash_slash, hrec])]
      simp

theorem mem_compsL_valid {l c : List Char} (hc : c ∈ compsL l) : validComp c := by
  simp only [compsL, List.mem_filter] at hc
  obtain ⟨hmem, hpred⟩ := hc
  have := of_decide_eq_true hpred
  exact ⟨this.1, this.2, not_slash_mem_splitSlash hmem⟩

theorem rootL_cases (l : List Char) :
    rootL l = [] ∨ rootL l = ['/'] ∨ rootL l = ['/', '/'] := by
  unfold rootL
  repeat' split
  all_goals simp

theorem rootL_not_slash {c : Char} (t : List Char) (hc : c ≠ '/') :
    rootL (c :: t) = [] := by
  simp only [rootL]
  rw [if_neg hc]

theorem compsL_slash (l : List Char) : compsL ('/' :: l) = compsL l := by
  unfold compsL
  rw [splitSlash_slash, List.filter_cons]
  simp

theorem comps_build {r : List Char} {cs : List (List Char)}
    (hr : r = [] ∨ r = ['/'] ∨ r = ['/', '/'])
    (hv : ∀ c ∈ cs, validComp c) :
    compsL (r ++ joinSlash cs) = cs := by
  have hbase : compsL (joinSlash cs) = cs := by
    match cs with
    | [] => rfl
    | c :: cs' =>
      unfold compsL
      rw [splitSlash_joinSlash (by simp) (fun x hx => (hv x hx).2.2)]
      apply List.filter_eq_self.mpr
      intro x hx
      exact decide_eq_true ⟨(hv x hx).1, (hv x hx).2.1⟩
  rcases hr with h | h | h <;> subst h
  · simpa using hbase
  · show compsL ('/' :: joinSlash cs) = cs
    rw [compsL_slash]; exact hbase
  · show compsL ('/' :: '/' :: joinSlash cs) = cs
    rw [compsL_slash, compsL_slash]; exact hbase

theorem joinSlash_cons_head (c : List Char) (cs : List (List Char)) :
    ∃ rest, joinSlash (c :: cs) = c ++ rest := by
  match cs with
  | [] => exact ⟨[], by simp [joinSlash]⟩
  | c' :: cs' => exact ⟨'/' :: joinSlash (c' :: cs'), rfl⟩

theorem rootL_slash_not_slash {a : Char} (x : List Char) (ha : a ≠ '/') :
    rootL ('/' :: a :: x) = ['/'] := by
  simp [rootL, ha]

theorem rootL_2slash_not_slash {a : Char} (x : List Char) (ha : a ≠ '/') :
    rootL ('/' :: '/' :: a :: x) = ['/', '/'] := by
  simp [rootL, ha]

theorem root_build {r : List Char} {cs : List (List Char)}
    (hr : r = [] ∨ r = ['/'] ∨ r = ['/', '/'])
    (hv : ∀ c ∈ cs, validComp c) :
    rootL (r ++ joinSlash cs) = r := by
  match cs with
  | [] =>
    rcases hr with h | h | h <;> subst h <;> rfl
  | c :: cs' =>
    have hc := hv c (by simp)
    obtain ⟨a, ct, hct⟩ : ∃ a ct, c = a :: ct := by
      match c, hc.1 with
      | a :: ct, _ => exact ⟨a, ct, rfl⟩
    have ha : a ≠ '/' := fun h => hc.2.2 (h ▸ hct ▸ List.mem_cons_self a ct)
    obtain ⟨rest, hrest⟩ := joinSlash_cons_head c cs'
    rcases hr with h | h | h <;> subst h
    · show rootL (joinSlash (c :: cs')) = []
      rw [hrest, hct]
      exact rootL_not_slash _ ha
    · show rootL ('/' :: joinSlash (c :: cs')) = ['/']
      rw [hrest, hct]
      exact rootL_slash_not_slash _ ha
    · show rootL ('/' :: '/' :: joinSlash (c :: cs')) = ['/', '/']
      rw [hrest, hct]
      exact rootL_2slash_not_slash _ ha

theorem norm_build {r : List Char} {cs : List (List Char)}
    (hr : r = [] ∨ r = ['/'] ∨ r = ['/', '/'])
    (hv : ∀ c ∈ cs, validComp c) (hne : cs ≠ []) :
    pathNormL (r ++ joinSlash cs) = r ++ joinSlash cs := by
  unfold pathNormL
  simp only [comps_build hr hv, root_build hr hv]
  rw [if_neg hne]

theorem pathNormL_cases (l : List Char) :
    pathNormL l = ['.'] ∨ pathNormL l = ['/'] ∨ pathNormL l = ['/', '/'] ∨
      (compsL l ≠ [] ∧ pathNormL l = rootL l ++ joinSlash (compsL l)) := by
  unfold pathNormL
  by_cases h : compsL l = []
  · simp only [h, if_pos rfl]
    rcases rootL_cases l with hr | hr | hr <;> simp [hr]
  · exact Or.inr (Or.inr (Or.inr ⟨h, by simp [h]⟩))

theorem pathNormL_idem (l : List Char) : pathNormL (pathNormL l) = pathNormL l := by
  rcases pathNormL_cases l with h | h | h | ⟨hne, h⟩
  · rw [h]; rfl
  · rw [h]; rfl
  · rw [h]; rfl
  · rw [h]
    exact norm_build (rootL_cases l) (fun c hc => mem_compsL_valid hc) hne

theorem pathNorm_idem (s : String) : pathNorm (pathNorm s) = pathNorm s := by
  simp [pathNorm, pathNormL_idem]

theorem joinSlash_append (as bs : List (List Char)) (ha : as ≠ []) (hb : bs ≠ []) :
    joinSlash (as ++ bs) = joinSlash as ++ '/' :: joinSlash bs := by
  induction as with
  | nil => exact absurd rfl ha
  | cons c as' ih =>
    match as' with
    | [] =>
      show joinSlash (c :: bs) = c ++ '/' :: joinSlash bs
      exact joinSlash_cons c bs hb
    | c' :: as'' =>
      have h1 : joinSlash ((c :: c' :: as'') ++ bs) = c ++ '/' :: joinSlash ((c' :: as'') ++ bs) := by
        rw [List.cons_append]
        exact joinSlash_cons c _ (by simp)
      rw [h1, ih (by simp), joinSlash_cons c (c' :: as'') (by simp)]
      simp

theorem joinSlash_getLast {cs : List (List Char)} (hne : cs ≠ [])
    (hv : ∀ c ∈ cs, validComp c) :
    ∃ ch, (joinSlash cs).getLast? = some ch ∧ ch ≠ '/' := by
  induction cs with
  | nil => exact absurd rfl hne
  | cons c cs' ih =>
    match cs' with
    | [] =>
      have hc := hv c (by simp)
      refine ⟨c.getLast hc.1, ?_, ?_⟩
      · exact List.getLast?_eq_getLast_of_ne_nil hc.1
      · exact fun h => hc.2.2 (h ▸ List.getLast_mem hc.1)
    | c' :: cs'' =>
      obtain ⟨ch, hch, hch'⟩ := ih (by simp) (fun x hx => hv x (List.mem_cons.mpr (Or.inr hx)))
      refine ⟨ch, ?_, hch'⟩
      have hnil : joinSlash (c' :: cs'') ≠ [] :=
        joinSlash_ne_nil (by simp) (fun x hx => (hv x (List.mem_cons.mpr (Or.inr hx))).1)
      rw [joinSlash_cons c (c' :: cs'') (by simp)]
      rw [List.getLast?_append_of_ne_nil c (by simp)]
      show (['/'] ++ joinSlash (c' :: cs'')).getLast? = some ch
      rw [List.getLast?_append_of_ne_nil ['/'] hnil]
      exact hch

theorem dropTrailingSlashes_of_last_ne {l : List Char} {ch : Char}
    (h : l.getLast? = some ch) (hch : ch ≠ '/') :
    dropTrailingSlashes l = l := by
  have hne : l ≠ [] := by intro e; subst e; simp at h
  have hdec : l.dropLast ++ [l.getLast hne] = l := List.dropLast_append_getLast hne
  have hlast : l.getLast hne = ch := by
    have h2 := List.getLast?_eq_getLast_of_ne_nil hne
    rw [h2] at h
    exact Option.some.inj h
  unfold dropTrailingSlashes
  conv_lhs => rw [← hdec, hlast, List.reverse_append]
  have h3 : List.reverse [ch] ++ l.dropLast.reverse = ch :: l.dropLast.reverse := by simp
  rw [h3]
  have hstep : (ch :: l.dropLast.reverse).dropWhile (fun c => decide (c = '/')) =
      ch :: l.dropLast.reverse := by
    simp [List.dropWhile_cons, hch]
  rw [hstep, show ch :: l.dropLast.reverse = (l.dropLast ++ [ch]).reverse by simp,
    List.reverse_reverse]
  conv_lhs => rw [← hlast]
  exact hdec

theorem takeWhile_append_all {p : Char → Bool} {xs ys : List Char}
    (h : ∀ a ∈ xs, p a = true) :
    (xs ++ ys).takeWhile p = xs ++ ys.takeWhile p := by
  induction xs with
  | nil => simp
  | cons a t ih =>
    have ha := h a (by simp)
    simp [List.takeWhile_cons, ha, ih (fun x hx => h x (List.mem_cons.mpr (Or.inr hx)))]

theorem dropWhile_append_all {p : Char → Bool} {xs ys : List Char}
    (h : ∀ a ∈ xs, p a = true) :
    (xs ++ ys).dropWhile p = ys.dropWhile p := by
  induction xs with
  | nil => simp
  | cons a t ih =>
    have ha := h a (by simp)
    simp [List.dropWhile_cons, ha, ih (fun x hx => h x (List.mem_cons.mpr (Or.inr hx)))]

theorem rootL_of_abs {l : List Char} (h : isAbsL l = true) :
    rootL l = ['/'] ∨ rootL l = ['/', '/'] := by
  match l with
  | [] => simp [isAbsL] at h
  | c :: t =>
    have hc : c = '/' := by simpa [isAbsL] using h
    subst hc
    match t with
    | [] => exact Or.inl rfl
    | c2 :: t2 =>
      by_cases h2 : c2 = '/'
      · subst h2
        match t2 with
        | [] => exact Or.inr rfl
        | c3 :: t3 =>
          by_cases h3 : c3 = '/'
          · subst h3
            exact Or.inl rfl
          · exact Or.inr (rootL_2slash_not_slash t3 h3)
      · exact Or.inl (rootL_slash_not_slash t2 h2)

theorem normalized_decomp {l : List Char} (hl : pathNormL l = l) :
    (l = ['.'] ∨ l = ['/'] ∨ l = ['/', '/']) ∨
      (compsL l ≠ [] ∧ l = rootL l ++ joinSlash (compsL l)) := by
  rcases pathNormL_cases l with h | h | h | ⟨hne, h⟩ <;> rw [hl] at h
  · exact Or.inl (Or.inl h)
  · exact Or.inl (Or.inr (Or.inl h))
  · exact Or.inl (Or.inr (Or.inr h))
  · exact Or.inr ⟨hne, h⟩

theorem isAbsL_append_root {r x : List Char} (hr : r = ['/'] ∨ r = ['/', '/']) :
    isAbsL (r ++ x) = true := by
  rcases hr with h | h <;> subst h <;> rfl

theorem ne_nil_of_isAbsL {x : List Char} (h : isAbsL x = true) : x ≠ [] := by
  intro e
  rw [e] at h
  simp [isAbsL] at h

theorem expanduserL_cons (env : Env) (c : Char) (rest : List Char) :
    expanduserL env (c :: rest) =
      if c = '~' then
        match env.userHome (String.mk (rest.takeWhile (fun x => decide (x ≠ '/')))) with
        | none => c :: rest
        | some h => expandResult h.data (rest.dropWhile (fun x => decide (x ≠ '/')))
      else c :: rest := rfl

theorem homeJoin_spec {hd : List Char} (habsd : isAbsL hd = true)
    (hnormd : pathNormL hd = hd) {tl : List Char}
    (htl : tl = [] ∨ ∃ cs', cs' ≠ [] ∧ (∀ x ∈ cs', validComp x) ∧ tl = '/' :: joinSlash cs') :
    isAbsL (expandResult hd tl) = true ∧
      pathNormL (expandResult hd tl) = expandResult hd tl := by
  rcases normalized_decomp hnormd with hdeg | ⟨hneH, hformH⟩
  · rcases hdeg with hd1 | hd1 | hd1
    · rw [hd1] at habsd
      simp [isAbsL] at habsd
    · subst hd1
      rcases htl with ht | ⟨cs', hcs', hv', ht⟩
      · subst ht
        exact ⟨rfl, rfl⟩
      · subst ht
        have hr : expandResult ['/'] ('/' :: joinSlash cs') = ['/'] ++ joinSlash cs' := by
          unfold expandResult
          rw [show dropTrailingSlashes ['/'] = [] from rfl]
          simp
        rw [hr]
        exact ⟨rfl, norm_build (Or.inr (Or.inl rfl)) hv' hcs'⟩
    · subst hd1
      rcases htl with ht | ⟨cs', hcs', hv', ht⟩
      · subst ht
        exact ⟨rfl, rfl⟩
      · subst ht
        have hr : expandResult ['/', '/'] ('/' :: joinSlash cs') = ['/'] ++ joinSlash cs' := by
          unfold expandResult
          rw [show dropTrailingSlashes ['/', '/'] = [] from rfl]
          simp
        rw [hr]
        exact ⟨rfl, norm_build (Or.inr (Or.inl rfl)) hv' hcs'⟩
  · have hval : ∀ x ∈ compsL hd, validComp x := fun x hx => mem_compsL_valid hx
    have hrootH := rootL_of_abs habsd
    have hjne : joinSlash (compsL hd) ≠ [] :=
      joinSlash_ne_nil hneH (fun x hx => (hval x hx).1)
    obtain ⟨ch, hch, hch'⟩ := joinSlash_getLast hneH hval
    have hlast : hd.getLast? = some ch := by
      conv_lhs => rw [hformH]
      rw [List.getLast?_append_of_ne_nil _ hjne]
      exact hch
    have hdrop : dropTrailingSlashes hd = hd := dropTrailingSlashes_of_last_ne hlast hch'
    rcases htl with ht | ⟨cs', hcs', hv', ht⟩
    · subst ht
      have hr : expandResult hd [] = hd := by
        unfold expandResult
        rw [hdrop]
        simp [ne_nil_of_isAbsL habsd]
      rw [hr]
      exact ⟨habsd, hnormd⟩
    · subst ht
      have hr : expandResult hd ('/' :: joinSlash cs') =
          rootL hd ++ joinSlash (compsL hd ++ cs') := by
        unfold expandResult
        rw [hdrop]
        have heq : hd ++ '/' :: joinSlash cs' = rootL hd ++ joinSlash (compsL hd ++ cs') := by
          conv_lhs => rw [hformH]
          rw [List.append_assoc]
          congr 1
          rw [joinSlash_append _ _ hneH hcs']
        simp only [heq]
        rw [if_neg (ne_nil_of_isAbsL (isAbsL_append_root hrootH))]
      rw [hr]
      refine ⟨isAbsL_append_root hrootH, norm_build (Or.inr hrootH) ?_ ?_⟩
      · intro x hx
        rcases List.mem_append.mp hx with hx | hx
        · exact hval x hx
        · exact hv' x hx
      · simp [hcs']

theorem expanduserL_cases (env : Env)
    (hhome : ∀ u h, env.userHome u = some h → isAbs h = true ∧ pathNorm h = h)
    {l : List Char} (hl : pathNormL l = l) :
    expanduserL env l = l ∨
      (isAbsL (expanduserL env l) = true ∧
        pathNormL (expanduserL env l) = expanduserL env l) := by
  match l with
  | [] => exact Or.inl rfl
  | c :: rest =>
    by_cases hc : c = '~'
    · subst hc
      have htl : rest.dropWhile (fun x => decide (x ≠ '/')) = [] ∨
          ∃ cs', cs' ≠ [] ∧ (∀ x ∈ cs', validComp x) ∧
            rest.dropWhile (fun x => decide (x ≠ '/')) = '/' :: joinSlash cs' := by
        have hroot : rootL ('~' :: rest) = [] := rootL_not_slash rest (by decide)
        rcases normalized_decomp hl with hdeg | ⟨hne, hform⟩
        · exfalso
          rcases hdeg with h | h | h <;>
            (injection h with h1 h2; exact absurd h1 (by decide))
        · rw [hroot, List.nil_append] at hform
          obtain ⟨c1, cs', hcons⟩ := List.exists_cons_of_ne_nil hne
          rw [hcons] at hform
          have hc1mem : c1 ∈ compsL ('~' :: rest) := by
            rw [hcons]; exact List.mem_cons_self c1 cs'
          have hval1 : validComp c1 := mem_compsL_valid hc1mem
          by_cases hcs' : cs' = []
          · subst hcs'
            have hc1 : c1 = '~' :: rest := by simpa [joinSlash] using hform.symm
            have hrestsf : ∀ x ∈ rest, (fun x => decide (x ≠ '/')) x = true := by
              intro x hx
              have hxc1 : x ∈ c1 := by rw [hc1]; exact List.mem_cons.mpr (Or.inr hx)
              have hxne : x ≠ '/' := fun e => hval1.2.2 (e ▸ hxc1)
              simpa using hxne
            left
            have hdw := @dropWhile_append_all (fun x => decide (x ≠ '/')) rest [] hrestsf
            simpa using hdw
          · rw [joinSlash_cons c1 cs' hcs'] at hform
            obtain ⟨b, bt, hb⟩ := List.exists_cons_of_ne_nil hval1.1
            rw [hb, List.cons_append] at hform
            injection hform with h1 h2
            right
            refine ⟨cs', hcs', ?_, ?_⟩
            · intro x hx
              have : x ∈ compsL ('~' :: rest) := by
                rw [hcons]; exact List.mem_cons.mpr (Or.inr hx)
              exact mem_compsL_valid this
            · rw [h2]
              have hbtsf : ∀ x ∈ bt, (fun x => decide (x ≠ '/')) x = true := by
                intro x hx
                have hxc1 : x ∈ c1 := by rw [hb]; exact List.mem_cons.mpr (Or.inr hx)
                have hxne : x ≠ '/' := fun e => hval1.2.2 (e ▸ hxc1)
                simpa using hxne
              rw [dropWhile_append_all hbtsf]
              simp [List.dropWhile_cons]
      rw [expanduserL_cons, if_pos rfl]
      cases hu : env.userHome (String.mk (rest.takeWhile (fun x => decide (x ≠ '/')))) with
      | none => exact Or.inl rfl
      | some h =>
        right
        obtain ⟨habs', hnorm'⟩ := hhome _ h hu
        exact homeJoin_spec habs' (congrArg String.data hnorm') htl
    · left
      rw [expanduserL_cons, if_neg hc]

theorem expanduser_cases (env : Env)
    (hhome : ∀ u h, env.userHome u = some h → isAbs h = true ∧ pathNorm h = h)
    (s : String) (hs : pathNorm s = s) :
    expanduser env s = s ∨
      (isAbs (expanduser env s) = true ∧
        pathNorm (expanduser env s) = expanduser env s) := by
  have hld : pathNormL s.data = s.data := congrArg String.data hs
  rcases expanduserL_cases env hhome hld with h | ⟨h1, h2⟩
  · left
    show String.mk (expanduserL env s.data) = s
    rw [h]
  · right
    refine ⟨h1, ?_⟩
    show String.mk (pathNormL (expanduserL env s.data)) = String.mk (expanduserL env s.data)
    rw [h2]

theorem expanduser_of_abs (env : Env) {p : String} (h : isAbs p = true) :
    expanduser env p = p := by
  show String.mk (expanduserL env p.data) = p
  have hstep : expanduserL env p.data = p.data := by
    unfold isAbs at h
    match hd : p.data with
    | [] => rfl
    | c :: t =>
      rw [hd] at h
      have hc : c = '/' := by simpa [isAbsL] using h
      rw [expanduserL_cons, if_neg (by rw [hc]; decide)]
  rw [hstep]

theorem get_full_path_congr (env : Env) {a b : String} (mf : String) (lim : Nat)
    (h : pathNorm a = pathNorm b) :
    get_full_path env a mf lim = get_full_path env b mf lim := by
  unfold get_full_path
  rw [h]

theorem get_full_path_cases (env : Env) (c mf : String) (lim : Nat) :
    get_full_path env c mf lim = expanduser env (pathNorm c) ∨
      ∃ p, get_full_path env c mf lim = absoluteStr env p ∧ pathNorm p = p := by
  simp only [get_full_path]
  split
  · split <;> split <;> split
    all_goals first
      | exact Or.inr ⟨_, rfl, pathNorm_idem _⟩
      | exact Or.inl rfl
  · exact Or.inl rfl

theorem absoluteStr_spec (env : Env) (hcwd : isAbs env.cwd = true) (p : String)
    (hp : pathNorm p = p) :
    isAbs (absoluteStr env p) = true ∧
      pathNorm (absoluteStr env p) = absoluteStr env p := by
  have hroot : rootL env.cwd.data = ['/'] ∨ rootL env.cwd.data = ['/', '/'] :=
    rootL_of_abs hcwd
  simp only [absoluteStr]
  by_cases h : isAbs p = true
  · rw [if_pos h]
    exact ⟨h, hp⟩
  · rw [if_neg h]
    by_cases hcs : compsL env.cwd.data ++ compsL p.data = []
    · rw [if_pos hcs]
      have hrne : ¬ rootL env.cwd.data = [] := by
        rcases hroot with h' | h' <;> simp [h']
      rw [if_neg hrne]
      rcases hroot with h' | h' <;> rw [h']
      · exact ⟨rfl, rfl⟩
      · exact ⟨rfl, rfl⟩
    · rw [if_neg hcs]
      constructor
      · exact isAbsL_append_root hroot
      · show String.mk (pathNormL (rootL env.cwd.data ++ joinSlash _)) = _
        rw [norm_build (rootL_cases env.cwd.data) ?_ ?_]
        · intro x hx
          rcases List.mem_append.mp hx with hx | hx
          · exact mem_compsL_valid hx
          · exact mem_compsL_valid hx
        · exact hcs

theorem get_full_path_fix_abs (env : Env) {p : String} (mf : String) (lim : Nat)
    (habs : isAbs p = true) (hnorm : pathNorm p = p) :
    get_full_path env p mf lim = p := by
  simp only [get_full_path, hnorm]
  rw [if_neg (by simp [habs])]
  exact expanduser_of_abs env habs

/-- Idempotence of the path resolver, for environments where every
resolvable user home is an absolute normalized path and the working
directory is absolute (always true of a real process). -/
theorem get_full_path_idem (env : Env)
    (hhome : ∀ u h, env.userHome u = some h → isAbs h = true ∧ pathNorm h = h)
    (hcwd : isAbs env.cwd = true) (c mf : String) (lim : Nat) :
    get_full_path env (get_full_path env c mf lim) mf lim =
      get_full_path env c mf lim := by
  rcases get_full_path_cases env c mf lim with h | ⟨p, h, hp⟩
  · rcases expanduser_cases env hhome (pathNorm c) (pathNorm_idem c) with he | ⟨habs, hnorm⟩
    · rw [h, he]
      calc get_full_path env (pathNorm c) mf lim
          = get_full_path env c mf lim := get_full_path_congr env mf lim (pathNorm_idem c)
        _ = pathNorm c := h.trans he
    · rw [h]
      exact get_full_path_fix_abs env mf lim habs hnorm
  · obtain ⟨habs, hnorm⟩ := absoluteStr_spec env hcwd p hp
    rw [h]
    exact get_full_path_fix_abs env mf lim habs hnorm

/-! ### Normalizer step lemmas -/

theorem firstKey_cons (e : Dict) (k : String) (ks : List String) :
    firstKey e (k :: ks) =
      match dget e k with
      | some v => some (k, v)
      | none => firstKey e ks := rfl

theorem dmem_true_iff (d : Dict) (k : String) :
    dmem d k = true ↔ ∃ v, dget d k = some v := by
  simp [dmem, Option.isSome_iff_exists]

theorem resolveAudio_none {e : Dict} {mf line : String}
    (h : firstKey e audioAliases = none) :
    resolveAudio e mf line = .error (.schemaError (audioKeyMsg mf line)) := by
  rw [show audioAliases = ["audio_filename", "audio_filepath", "audio_file"] from rfl] at h
  rw [firstKey_cons] at h
  cases h1 : dget e "audio_filename" with
  | some v => rw [h1] at h; cases h
  | none =>
    rw [h1, firstKey_cons] at h
    cases h2 : dget e "audio_filepath" with
    | some v => rw [h2] at h; cases h
    | none =>
      rw [h2, firstKey_cons] at h
      cases h3 : dget e "audio_file" with
      | some v => rw [h3] at h; cases h
      | none =>
        unfold resolveAudio
        rw [if_neg (by simp [dmem, h1]), if_neg (by simp [dmem, h2]),
          if_pos (by simp [dmem, h3])]

theorem resolveAudio_firstKey {e : Dict} {mf line : String} {k : String} {v : JVal}
    (h : firstKey e audioAliases = some (k, v)) :
    ∃ e1, resolveAudio e mf line = .ok e1 ∧ dget e1 "audio_file" = some v ∧
      (k = "audio_file" ∨ dget e1 k = none) ∧
      (∀ key, key ≠ "audio_file" → key ≠ k → dget e1 key = dget e key) := by
  rw [show audioAliases = ["audio_filename", "audio_filepath", "audio_file"] from rfl,
    firstKey_cons] at h
  cases h1 : dget e "audio_filename" with
  | some v1 =>
    rw [h1] at h
    have hinj := Option.some.inj h
    have hk : k = "audio_filename" := (congrArg Prod.fst hinj).symm
    have hv : v1 = v := congrArg Prod.snd hinj
    subst hk; subst hv
    refine ⟨dset (derase e "audio_filename") "audio_file" (dgetD e "audio_filename" jnull),
      ?_, ?_, ?_, ?_⟩
    · unfold resolveAudio
      rw [if_pos (by simp [dmem, h1])]
    · rw [dget_dset_self]
      simp [dgetD, h1]
    · right
      rw [dget_dset_ne _ _ _ _ (by decide), dget_derase_self]
    · intro key hka hkk
      rw [dget_dset_ne _ _ _ _ hka, dget_derase_ne _ _ _ hkk]
  | none =>
    rw [h1, firstKey_cons] at h
    cases h2 : dget e "audio_filepath" with
    | some v2 =>
      rw [h2] at h
      have hinj := Option.some.inj h
      have hk : k = "audio_filepath" := (congrArg Prod.fst hinj).symm
      have hv : v2 = v := congrArg Prod.snd hinj
      subst hk; subst hv
      refine ⟨dset (derase e "audio_filepath") "audio_file" (dgetD e "audio_filepath" jnull),
        ?_, ?_, ?_, ?_⟩
      · unfold resolveAudio
        rw [if_neg (by simp [dmem, h1]), if_pos (by simp [dmem, h2])]
      · rw [dget_dset_self]
        simp [dgetD, h2]
      · right
        rw [dget_dset_ne _ _ _ _ (by decide), dget_derase_self]
      · intro key hka hkk
        rw [dget_dset_ne _ _ _ _ hka, dget_derase_ne _ _ _ hkk]
    | none =>
      rw [h2, firstKey_cons] at h
      cases h3 : dget e "audio_file" with
      | some v3 =>
        rw [h3] at h
        have hinj := Option.some.inj h
        have hk : k = "audio_file" := (congrArg Prod.fst hinj).symm
        have hv : v3 = v := congrArg Prod.snd hinj
        subst hk; subst hv
        refine ⟨e, ?_, h3, Or.inl rfl, fun key _ _ => rfl⟩
        unfold resolveAudio
        rw [if_neg (by simp [dmem, h1]), if_neg (by simp [dmem, h2]),
          if_neg (by simp [dmem, h3])]
      | none =>
        rw [h3] at h
        cases h

theorem textStep_frame {env : Env} {d d' : Dict}
    (h : textStep env d = .ok d') (key : String)
    (h1 : key ≠ "text") (h2 : key ≠ "text_filepath") :
    dget d' key = dget d key := by
  unfold textStep at h
  split at h
  · exact (Except.ok.inj h) ▸ rfl
  · split at h
    · split at h
      · split at h
        · have hd := Except.ok.inj h
          subst hd
          rw [dget_dset_ne _ _ _ _ h1, dget_derase_ne _ _ _ h2]
        · cases h
      · cases h
    · split at h
      · have hd := Except.ok.inj h
        subst hd
        rw [dget_dset_ne _ _ _ _ h1]
      · have hd := Except.ok.inj h
        subst hd
        rw [dget_dset_ne _ _ _ _ h1]

theorem textStep_text {env : Env} {d d' : Dict} (h : textStep env d = .ok d') :
    (dmem d "text" = true → dget d' "text" = dget d "text") ∧
    (dmem d "text" = false → ∀ fp, dget d "text_filepath" = some (jstr fp) →
      ∃ content, env.readFile fp = some content ∧
        dget d' "text" = some (jstr (stripNewlines content))) ∧
    (dmem d "text" = false → dmem d "text_filepath" = false →
      dmem d "normalized_text" = true → dget d' "text" = dget d "normalized_text") ∧
    (dmem d "text" = false → dmem d "text_filepath" = false →
      dmem d "normalized_text" = false → dget d' "text" = some (jstr "")) := by
  unfold textStep at h
  split at h
  · rename_i hmem
    have hd := Except.ok.inj h
    subst hd
    exact ⟨fun _ => rfl, fun hf => absurd hmem (by simp [hf]),
      fun hf _ _ => absurd hmem (by simp [hf]), fun hf _ _ => absurd hmem (by simp [hf])⟩
  · rename_i hmem
    split at h
    · rename_i hmemf
      split at h
      · rename_i fp hfp
        split at h
        · rename_i content hcontent
          have hd := Except.ok.inj h
          subst hd
          refine ⟨fun ht => absurd ht (by simpa using hmem), ?_,
            fun _ hf _ => absurd hmemf (by simp [hf]),
            fun _ hf _ => absurd hmemf (by simp [hf])⟩
          intro _ fp' hfp'
          have hfpeq : fp' = fp := by
            rw [show dgetD d "text_filepath" jnull = (dget d "text_filepath").getD jnull from rfl,
              hfp'] at hfp
            simpa using hfp
          subst hfpeq
          exact ⟨content, hcontent, by rw [dget_dset_self]⟩
        · cases h
      · cases h
    · rename_i hmemf
      split at h
      · rename_i hmemn
        have hd := Except.ok.inj h
        subst hd
        refine ⟨fun ht => absurd ht (by simpa using hmem),
          fun _ fp hfp => absurd ((dmem_true_iff d "text_filepath").mpr ⟨_, hfp⟩) hmemf, ?_, ?_⟩
        · intro _ _ hn
          rw [dget_dset_self]
          obtain ⟨v, hv⟩ := (dmem_true_iff d "normalized_text").mp hn
          simp [dgetD, hv]
        · intro _ _ hn
          exact absurd hmemn (by simp [hn])
      · rename_i hmemn
        have hd := Except.ok.inj h
        subst hd
        refine ⟨fun ht => absurd ht (by simpa using hmem), ?_, ?_, ?_⟩
        · intro _ fp hfp
          exfalso
          have : dmem d "text_filepath" = true := by
            rw [dmem_true_iff]; exact ⟨_, hfp⟩
          simp [this] at hmemf
        · intro _ _ hn
          exact absurd hn (by simpa using hmemn)
        · intro _ _ _
          rw [dget_dset_self]

theorem aliasStep_frame (d : Dict) (c k1 k2 key : String)
    (h1 : key ≠ c) (h2 : key ≠ k1) (h3 : key ≠ k2) :
    dget (aliasStep d c k1 k2) key = dget d key := by
  unfold aliasStep
  split
  · rfl
  · split
    · rw [dget_dset_ne _ _ _ _ h1, dget_derase_ne _ _ _ h2]
    · split
      · rw [dget_dset_ne _ _ _ _ h1, dget_derase_ne _ _ _ h3]
      · rw [dget_dset_ne _ _ _ _ h1]

theorem aliasStep_absent (d : Dict) (c k1 k2 : String)
    (h0 : dmem d c = false) (h1 : dmem d k1 = false) (h2 : dmem d k2 = false) :
    dget (aliasStep d c k1 k2) c = some jnull := by
  unfold aliasStep
  rw [if_neg (by simp [h0]), if_neg (by simp [h1]), if_neg (by simp [h2]),
    dget_dset_self]

theorem pathify_frame {env : Env} {d : Dict} {key mf : String} {d' : Dict}
    (h : pathify env d key mf = .ok d') (k' : String) (hk : k' ≠ key) :
    dget d' k' = dget d k' := by
  unfold pathify at h
  split at h
  · exact (Except.ok.inj h) ▸ rfl
  · have hd := Except.ok.inj h
    subst hd
    rw [dget_dset_ne _ _ _ _ hk]
  · cases h

theorem pathify_null {env : Env} {d : Dict} {key mf : String}
    (h : dgetD d key jnull = jnull) : pathify env d key mf = .ok d := by
  unfold pathify
  rw [h]

theorem pathify_self {env : Env} {d : Dict} {key mf : String} {d' : Dict}
    (h : pathify env d key mf = .ok d') :
    (dgetD d key jnull = jnull → dget d' key = dget d key) ∧
    (∀ s, dgetD d key jnull = jstr s →
      dget d' key = some (jstr (get_full_path env s mf 255))) := by
  unfold pathify at h
  split at h
  · rename_i hnull
    have hd := Except.ok.inj h
    subst hd
    exact ⟨fun _ => rfl, fun s hs => by rw [hs] at hnull; cases hnull⟩
  · rename_i s hs
    have hd := Except.ok.inj h
    subst hd
    constructor
    · intro hnull
      rw [hs] at hnull
      cases hnull
    · intro s' hs'
      rw [hs] at hs'
      have : s = s' := JVal.jstr.inj hs'
      subst this
      rw [dget_dset_self]
  · cases h

theorem isValidStep_frame (d : Dict) (key : String) (h : key ≠ "is_valid") :
    dget (isValidStep d) key = dget d key := by
  unfold isValidStep
  split
  · rw [dget_dset_ne _ _ _ _ h]
    rw [dget_derase_ne _ _ _ h]
  · rfl

theorem isValidStep_value (d : Dict) :
    dget (isValidStep d) "is_valid" = dget d "is_valid" := by
  unfold isValidStep
  split
  · rename_i hmem
    rw [dget_dset_self]
    obtain ⟨v, hv⟩ := (dmem_true_iff d "is_valid").mp hmem
    simp [dgetD, hv]
  · rfl

theorem keys_mkCanonical (d : Dict) : (mkCanonical d).map Prod.fst = canonKeys := rfl

theorem dmem_mkCanonical_id (d : Dict) : dmem (mkCanonical d) "id" = false := rfl

theorem dget_mkCanonical_audio (d : Dict) :
    dget (mkCanonical d) "audio_file" = some (dgetD d "audio_file" jnull) := rfl

theorem dget_mkCanonical_duration (d : Dict) :
    dget (mkCanonical d) "duration" = some (dgetD d "duration" jnull) := rfl

theorem dget_mkCanonical_text (d : Dict) :
    dget (mkCanonical d) "text" = some (dgetD d "text" jnull) := rfl

theorem dget_mkCanonical_rttm (d : Dict) :
    dget (mkCanonical d) "rttm_file" = some (dgetD d "rttm_file" jnull) := rfl

theorem dget_mkCanonical_feature (d : Dict) :
    dget (mkCanonical d) "feature_file" = some (dgetD d "feature_file" jnull) := rfl

theorem dget_mkCanonical_offset (d : Dict) :
    dget (mkCanonical d) "offset" = some (dgetD d "offset" jnull) := rfl

theorem dget_mkCanonical_speaker (d : Dict) :
    dget (mkCanonical d) "speaker" = some (dgetD d "speaker" jnull) := rfl

theorem dget_mkCanonical_orig_sr (d : Dict) :
    dget (mkCanonical d) "orig_sr" = some (dgetD d "orig_sample_rate" jnull) := rfl

theorem dget_mkCanonical_token_labels (d : Dict) :
    dget (mkCanonical d) "token_labels" = some (dgetD d "token_labels" jnull) := rfl

theorem dget_mkCanonical_lang (d : Dict) :
    dget (mkCanonical d) "lang" = some (dgetD d "lang" jnull) := rfl

theorem dget_mkCanonical_is_valid (d : Dict) :
    dget (mkCanonical d) "is_valid" = some (dgetD d "is_valid" jnull) := rfl

theorem parse_entry_inv {env : Env} {e : Dict} {mf line : String} {d : Dict}
    (h : parse_entry env e mf line = .ok d) :
    ∃ e1 s e3 e4 e5,
      resolveAudio e mf line = .ok e1 ∧
      dgetD e1 "audio_file" jnull = jstr s ∧
      dmem (dset e1 "audio_file" (jstr (get_full_path env s mf 255))) "duration" = true ∧
      textStep env (dset e1 "audio_file" (jstr (get_full_path env s mf 255))) = .ok e3 ∧
      pathify env (aliasStep e3 "rttm_file" "rttm_filename" "rttm_filepath") "rttm_file" mf
        = .ok e4 ∧
      pathify env (aliasStep e4 "feature_file" "feature_filename" "feature_filepath")
        "feature_file" mf = .ok e5 ∧
      d = mkCanonical (isValidStep e5) := by
  unfold parse_entry at h
  split at h
  · cases h
  · rename_i e1 hres
    split at h
    · rename_i s hs
      dsimp only [] at h
      split at h
      · cases h
      · rename_i hdur
        split at h
        · cases h
        · rename_i e3 htext
          split at h
          · cases h
          · rename_i e4 hrttm
            split at h
            · cases h
            · rename_i e5 hfeat
              exact ⟨e1, s, e3, e4, e5, hres, hs, by simpa using hdur, htext, hrttm, hfeat,
                (Except.ok.inj h).symm⟩
    · cases h

theorem firstKey_mem {e : Dict} {ks : List String} {k : String} {v : JVal}
    (h : firstKey e ks = some (k, v)) : k ∈ ks := by
  induction ks with
  | nil => cases h
  | cons k' ks' ih =>
    rw [firstKey_cons] at h
    cases hg : dget e k' with
    | some w =>
      rw [hg] at h
      have := Option.some.inj h
      exact List.mem_cons.mpr (Or.inl (congrArg Prod.fst this).symm)
    | none =>
      rw [hg] at h
      exact List.mem_cons.mpr (Or.inr (ih h))

theorem resolveAudio_error_inv {e : Dict} {mf line : String} {er : PErr}
    (h : resolveAudio e mf line = .error er) :
    firstKey e audioAliases = none ∧ er = .schemaError (audioKeyMsg mf line) := by
  unfold resolveAudio at h
  split at h
  · cases h
  · split at h
    · cases h
    · split at h
      · rename_i h1 h2 h3
        have e1 : dget e "audio_filename" = none := by
          rw [← dmem_eq_false_iff]; simpa using h1
        have e2 : dget e "audio_filepath" = none := by
          rw [← dmem_eq_false_iff]; simpa using h2
        have e3 : dget e "audio_file" = none := by
          rw [← dmem_eq_false_iff]; simpa using h3
        refine ⟨?_, (Except.error.inj h).symm⟩
        rw [show audioAliases = ["audio_filename", "audio_filepath", "audio_file"] from rfl]
        rw [firstKey_cons, e1, firstKey_cons, e2, firstKey_cons, e3]
        rfl
      · cases h

theorem resolveAudio_ok_firstKey {e : Dict} {mf line : String} {e1 : Dict}
    (h : resolveAudio e mf line = .ok e1) :
    ∃ k v, firstKey e audioAliases = some (k, v) := by
  unfold resolveAudio at h
  rw [show audioAliases = ["audio_filename", "audio_filepath", "audio_file"] from rfl]
  split at h
  · rename_i h1
    obtain ⟨v, hv⟩ := (dmem_true_iff _ _).mp h1
    exact ⟨"audio_filename", v, by rw [firstKey_cons, hv]⟩
  · split at h
    · rename_i h1 h2
      obtain ⟨v, hv⟩ := (dmem_true_iff _ _).mp h2
      have e1' : dget e "audio_filename" = none := by
        rw [← dmem_eq_false_iff]; simpa using h1
      exact ⟨"audio_filepath", v, by rw [firstKey_cons, e1', firstKey_cons, hv]⟩
    · split at h
      · cases h
      · rename_i h1 h2 h3
        have hmem : dmem e "audio_file" = true := by simpa using h3
        obtain ⟨v, hv⟩ := (dmem_true_iff _ _).mp hmem
        have e1' : dget e "audio_filename" = none := by
          rw [← dmem_eq_false_iff]; simpa using h1
        have e2' : dget e "audio_filepath" = none := by
          rw [← dmem_eq_false_iff]; simpa using h2
        exact ⟨"audio_file", v,
          by rw [firstKey_cons, e1', firstKey_cons, e2', firstKey_cons, hv]⟩

theorem textStep_error_not_schema {env : Env} {d : Dict} {er : PErr}
    (h : textStep env d = .error er) : ∀ m, er ≠ .schemaError m := by
  unfold textStep at h
  split at h
  · cases h
  · split at h
    · split at h
      · split at h
        · cases h
        · have := Except.error.inj h
          subst this
          intro m hm
          cases hm
      · have := Except.error.inj h
        subst this
        intro m hm
        cases hm
    · split at h
      · cases h
      · cases h

theorem pathify_error_not_schema {env : Env} {d : Dict} {key mf : String} {er : PErr}
    (h : pathify env d key mf = .error er) : ∀ m, er ≠ .schemaError m := by
  unfold pathify at h
  split at h
  · cases h
  · cases h
  · have := Except.error.inj h
    subst this
    intro m hm
    cases hm

/-- The duration-membership test in `__parse_item` sees the original
entry's `duration` binding: the audio block and the `audio_file`
assignment do not touch the key `duration`. -/
theorem dmem_duration_through_audio {e : Dict} {mf line : String} {e1 : Dict} {k : String}
    {v : JVal} (hfk : firstKey e audioAliases = some (k, v))
    (hres : resolveAudio e mf line = .ok e1) (w : JVal) :
    dget (dset e1 "audio_file" w) "duration" = dget e "duration" := by
  obtain ⟨e1', hres', _, _, hframe⟩ := @resolveAudio_firstKey e mf line k v hfk
  have he : e1' = e1 := Except.ok.inj (hres'.symm.trans hres)
  subst he
  rw [dget_dset_ne _ _ _ _ (by decide)]
  apply hframe
  · decide
  · have hk := firstKey_mem hfk
    simp only [audioAliases, List.mem_cons, List.not_mem_nil, or_false] at hk
    rcases hk with h | h | h <;> (subst h; decide)

/-- Characterization of exactly when the default normalizer raises one
of its two `ValueError`s (the spec's `SchemaError`): either no audio
alias is present, or the audio value is a string (so `Path()` accepts
it) and `duration` is missing. -/
theorem parse_entry_schema_iff (env : Env) (e : Dict) (mf line : String) :
    (∃ msg, parse_entry env e mf line = .error (.schemaError msg)) ↔
      (firstKey e audioAliases = none ∨
        (∃ k s, firstKey e audioAliases = some (k, jstr s) ∧ dmem e "duration" = false)) := by
  constructor
  · rintro ⟨msg, h⟩
    unfold parse_entry at h
    split at h
    · rename_i er hres
      exact Or.inl (resolveAudio_error_inv hres).1
    · rename_i e1 hres
      split at h
      · rename_i s hs
        dsimp only [] at h
        split at h
        · rename_i hdur
          right
          obtain ⟨k, v, hfk⟩ := resolveAudio_ok_firstKey hres
          obtain ⟨e1', hres', hget, _, _⟩ := @resolveAudio_firstKey e mf line k v hfk
          have he : e1' = e1 := Except.ok.inj (hres'.symm.trans hres)
          rw [he] at hget
          have hv : v = jstr s := by
            rw [show dgetD e1 "audio_file" jnull = (dget e1 "audio_file").getD jnull from rfl,
              hget] at hs
            simpa using hs
          subst hv
          refine ⟨k, s, hfk, ?_⟩
          have hnone : dget (dset e1 "audio_file" (jstr (get_full_path env s mf 255)))
              "duration" = none := (dmem_eq_false_iff _ _).mp (by simpa using hdur)
          rw [dmem_duration_through_audio hfk hres _] at hnone
          rw [dmem_eq_false_iff]
          exact hnone
        · split at h
          · rename_i er htext
            exact absurd (Except.error.inj h).symm
              (fun hh => textStep_error_not_schema htext msg hh.symm)
          · rename_i e3 htext
            split at h
            · rename_i er hrttm
              exact absurd (Except.error.inj h).symm
                (fun hh => pathify_error_not_schema hrttm msg hh.symm)
            · rename_i e4 hrttm
              split at h
              · rename_i er hfeat
                exact absurd (Except.error.inj h).symm
                  (fun hh => pathify_error_not_schema hfeat msg hh.symm)
              · cases h
      · exfalso
        have := Except.error.inj h
        cases this
  · rintro (hnone | ⟨k, s, hfk, hdur⟩)
    · exact ⟨audioKeyMsg mf line, by unfold parse_entry; rw [resolveAudio_none hnone]⟩
    · obtain ⟨e1, hres, hget, _, _⟩ := @resolveAudio_firstKey e mf line k (jstr s) hfk
      refine ⟨durationKeyMsg mf line, ?_⟩
      unfold parse_entry
      rw [hres]
      dsimp only []
      have hgd : dgetD e1 "audio_file" jnull = jstr s := by simp [dgetD, hget]
      rw [hgd]
      dsimp only []
      have hd2 : dmem (dset e1 "audio_file" (jstr (get_full_path env s mf 255)))
          "duration" = false := by
        rw [dmem_eq_false_iff, dmem_duration_through_audio hfk hres _, ← dmem_eq_false_iff]
        exact hdur
      rw [if_pos hd2]

theorem parse_entry_schema_msg_id {env : Env} {e : Dict} {mf line msg : String}
    (h : parse_entry env e mf line = .error (.schemaError msg)) :
    msg = audioKeyMsg mf line ∨ msg = durationKeyMsg mf line := by
  unfold parse_entry at h
  split at h
  · rename_i er hres
    have h2 := Except.error.inj h
    rw [(resolveAudio_error_inv hres).2] at h2
    exact Or.inl (PErr.schemaError.inj h2).symm
  · rename_i e1 hres
    split at h
    · rename_i s hs
      dsimp only [] at h
      split at h
      · have h2 := Except.error.inj h
        exact Or.inr (PErr.schemaError.inj h2).symm
      · split at h
        · rename_i er htext
          exact absurd (Except.error.inj h).symm
            (fun hh => textStep_error_not_schema htext msg hh.symm)
        · rename_i e3 htext
          split at h
          · rename_i er hrttm
            exact absurd (Except.error.inj h).symm
              (fun hh => pathify_error_not_schema hrttm msg hh.symm)
          · rename_i e4 hrttm
            split at h
            · rename_i er hfeat
              exact absurd (Except.error.inj h).symm
                (fun hh => pathify_error_not_schema hfeat msg hh.symm)
            · cases h
    · exfalso
      have := Except.error.inj h
      cases this

theorem parse_entry_schema_msg {env : Env} {e : Dict} {mf line msg : String}
    (h : parse_entry env e mf line = .error (.schemaError msg)) :
    (∃ a b, msg = a ++ mf ++ b) ∧ (∃ a b, msg = a ++ line ++ b) := by
  rcases parse_entry_schema_msg_id h with hm | hm <;> subst hm
  · constructor
    · exact ⟨"Manifest file ",
        " has invalid json line structure: " ++ line ++ " without proper audio file key.",
        by simp [audioKeyMsg, String.append_assoc]⟩
    · exact ⟨"Manifest file " ++ mf ++ " has invalid json line structure: ",
        " without proper audio file key.", rfl⟩
  · constructor
    · exact ⟨"Manifest file ",
        " has invalid json line structure: " ++ line ++ " without proper duration key.",
        by simp [durationKeyMsg, String.append_assoc]⟩
    · exact ⟨"Manifest file " ++ mf ++ " has invalid json line structure: ",
        " without proper duration key.", rfl⟩

/-! ### Reader lemmas -/

theorem runLines_spec (env : Env) (mf : String) :
    ∀ lines (k : Nat) ds, runLines env mf k lines = .ok ds →
      ds.length = lines.length ∧
      ds.map (fun d => dget d "id") =
        (List.range' k lines.length 1).map (fun i => some (jnum (Int.ofNat i))) := by
  intro lines
  induction lines with
  | nil =>
    intro k ds h
    have := Except.ok.inj h
    subst this
    simp
  | cons line rest ih =>
    intro k ds h
    unfold runLines at h
    split at h
    · cases h
    · rename_i d hd
      split at h
      · cases h
      · rename_i ds' hds
        have := Except.ok.inj h
        subst this
        obtain ⟨hlen, hmap⟩ := ih (k + 1) ds' hds
        refine ⟨by simp [hlen], ?_⟩
        simp only [List.length_cons, List.map_cons, dget_dset_self]
        rw [show List.range' k (rest.length + 1) 1 = k :: List.range' (k + 1) rest.length 1
          from rfl]
        simp [hmap]

theorem runFiles_spec (env : Env) :
    ∀ files (k : Nat) ds, runFiles env k files = .ok ds →
      ds.length = totalLines env files ∧
      ds.map (fun d => dget d "id") =
        (List.range' k ds.length 1).map (fun i => some (jnum (Int.ofNat i))) := by
  intro files
  induction files with
  | nil =>
    intro k ds h
    have := Except.ok.inj h
    subst this
    simp [totalLines]
  | cons f rest ih =>
    intro k ds h
    unfold runFiles at h
    dsimp only [] at h
    split at h
    · cases h
    · rename_i ds1 h1
      split at h
      · cases h
      · rename_i ds2 h2
        have := Except.ok.inj h
        subst this
        obtain ⟨hlen1, hmap1⟩ := runLines_spec env f _ k ds1 h1
        obtain ⟨hlen2, hmap2⟩ := ih _ ds2 h2
        constructor
        · simp [totalLines, hlen1, hlen2, List.map_cons]
        · rw [List.map_append, hmap1, hmap2, ← hlen1, ← List.map_append]
          congr 1
          rw [List.length_append]
          have hap := List.range'_append k ds1.length ds2.length 1
          rw [Nat.one_mul] at hap
          rw [Nat.add_comm ds1.length ds2.length]
          exact hap

theorem parse_item_shape {env : Env} {line mf : String} {d : Dict}
    (h : parse_item env line mf = .ok d) :
    ∃ e x, env.jsonParse line = some e ∧ parse_entry env e mf line = .ok d ∧
      d = mkCanonical x := by
  unfold parse_item at h
  split at h
  · cases h
  · rename_i e he
    obtain ⟨e1, s, e3, e4, e5, _, _, _, _, _, _, hd⟩ := parse_entry_inv h
    exact ⟨e, isValidStep e5, he, h, hd⟩

theorem runLines_shape (env : Env) (mf : String) :
    ∀ lines (k : Nat) ds, runLines env mf k lines = .ok ds →
      ∀ item ∈ ds, ∃ x j, item = dset (mkCanonical x) "id" (jnum j) := by
  intro lines
  induction lines with
  | nil =>
    intro k ds h item hmem
    have := Except.ok.inj h
    subst this
    simp at hmem
  | cons line rest ih =>
    intro k ds h item hmem
    unfold runLines at h
    split at h
    · cases h
    · rename_i d hd
      split at h
      · cases h
      · rename_i ds' hds
        have := Except.ok.inj h
        subst this
        rcases List.mem_cons.mp hmem with he | he
        · obtain ⟨e, x, _, _, hdx⟩ := parse_item_shape hd
          exact ⟨x, Int.ofNat k, by rw [he, hdx]⟩
        · exact ih (k + 1) ds' hds item he

theorem runFiles_shape (env : Env) :
    ∀ files (k : Nat) ds, runFiles env k files = .ok ds →
      ∀ item ∈ ds, ∃ x j, item = dset (mkCanonical x) "id" (jnum j) := by
  intro files
  induction files with
  | nil =>
    intro k ds h item hmem
    have := Except.ok.inj h
    subst this
    simp at hmem
  | cons f rest ih =>
    intro k ds h item hmem
    unfold runFiles at h
    dsimp only [] at h
    split at h
    · cases h
    · rename_i ds1 h1
      split at h
      · cases h
      · rename_i ds2 h2
        have := Except.ok.inj h
        subst this
        rcases List.mem_append.mp hmem with he | he
        · exact runLines_shape env f _ k ds1 h1 item he
        · exact ih _ ds2 h2 item he

theorem resolveAudio_frame {e : Dict} {mf line : String} {e1 : Dict}
    (h : resolveAudio e mf line = .ok e1) (key : String)
    (h1 : key ≠ "audio_file") (h2 : key ≠ "audio_filename") (h3 : key ≠ "audio_filepath") :
    dget e1 key = dget e key := by
  unfold resolveAudio at h
  split at h
  · have := Except.ok.inj h
    subst this
    rw [dget_dset_ne _ _ _ _ h1, dget_derase_ne _ _ _ h2]
  · split at h
    · have := Except.ok.inj h
      subst this
      rw [dget_dset_ne _ _ _ _ h1, dget_derase_ne _ _ _ h3]
    · split at h
      · cases h
      · exact (Except.ok.inj h) ▸ rfl

theorem parse_entry_passthrough {env : Env} {e : Dict} {mf line : String} {d : Dict}
    (h : parse_entry env e mf line = .ok d) (key : String)
    (h1 : key ≠ "audio_file") (h2 : key ≠ "audio_filename") (h3 : key ≠ "audio_filepath")
    (h4 : key ≠ "text") (h5 : key ≠ "text_filepath")
    (h6 : key ≠ "rttm_file") (h7 : key ≠ "rttm_filename") (h8 : key ≠ "rttm_filepath")
    (h9 : key ≠ "feature_file") (h10 : key ≠ "feature_filename")
    (h11 : key ≠ "feature_filepath") :
    ∃ x, d = mkCanonical x ∧ dget x key = dget e key := by
  obtain ⟨e1, s, e3, e4, e5, hres, hs, hdur, htext, hrttm, hfeat, hd⟩ := parse_entry_inv h
  refine ⟨isValidStep e5, hd, ?_⟩
  have s1 : dget e1 key = dget e key := resolveAudio_frame hres key h1 h2 h3
  have s2 : dget (dset e1 "audio_file" (jstr (get_full_path env s mf 255))) key
      = dget e1 key := dget_dset_ne _ _ _ _ h1
  have s3 : dget e3 key
      = dget (dset e1 "audio_file" (jstr (get_full_path env s mf 255))) key :=
    textStep_frame htext key h4 h5
  have s4 : dget (aliasStep e3 "rttm_file" "rttm_filename" "rttm_filepath") key
      = dget e3 key := aliasStep_frame e3 _ _ _ key h6 h7 h8
  have s5 : dget e4 key
      = dget (aliasStep e3 "rttm_file" "rttm_filename" "rttm_filepath") key :=
    pathify_frame hrttm key h6
  have s6 : dget (aliasStep e4 "feature_file" "feature_filename" "feature_filepath") key
      = dget e4 key := aliasStep_frame e4 _ _ _ key h9 h10 h11
  have s7 : dget e5 key
      = dget (aliasStep e4 "feature_file" "feature_filename" "feature_filepath") key :=
    pathify_frame hfeat key h9
  by_cases hiv : key = "is_valid"
  · subst hiv
    rw [isValidStep_value, s7, s6, s5, s4, s3, s2, s1]
  · rw [isValidStep_frame e5 key hiv, s7, s6, s5, s4, s3, s2, s1]

theorem parse_entry_rttm_default {env : Env} {e : Dict} {mf line : String} {d : Dict}
    (h : parse_entry env e mf line = .ok d)
    (n1 : dmem e "rttm_file" = false) (n2 : dmem e "rttm_filename" = false)
    (n3 : dmem e "rttm_filepath" = false) :
    dget d "rttm_file" = some jnull := by
  obtain ⟨e1, s, e3, e4, e5, hres, hs, hdur, htext, hrttm, hfeat, hd⟩ := parse_entry_inv h
  have g : ∀ key, key ≠ "audio_file" → key ≠ "audio_filename" → key ≠ "audio_filepath" →
      key ≠ "text" → key ≠ "text_filepath" → dget e3 key = dget e key := by
    intro key k1 k2 k3 k4 k5
    rw [textStep_frame htext key k4 k5, dget_dset_ne _ _ _ _ k1,
      resolveAudio_frame hres key k1 k2 k3]
  have m1 : dmem e3 "rttm_file" = false := by
    rw [dmem_eq_false_iff, g _ (by decide) (by decide) (by decide) (by decide) (by decide),
      ← dmem_eq_false_iff]
    exact n1
  have m2 : dmem e3 "rttm_filename" = false := by
    rw [dmem_eq_false_iff, g _ (by decide) (by decide) (by decide) (by decide) (by decide),
      ← dmem_eq_false_iff]
    exact n2
  have m3 : dmem e3 "rttm_filepath" = false := by
    rw [dmem_eq_false_iff, g _ (by decide) (by decide) (by decide) (by decide) (by decide),
      ← dmem_eq_false_iff]
    exact n3
  have ha : dget (aliasStep e3 "rttm_file" "rttm_filename" "rttm_filepath") "rttm_file"
      = some jnull := aliasStep_absent e3 _ _ _ m1 m2 m3
  have he4 : dget e4 "rttm_file" = some jnull := by
    rw [(pathify_self hrttm).1 (by simp [dgetD, ha]), ha]
  have he5 : dget (isValidStep e5) "rttm_file" = some jnull := by
    rw [isValidStep_frame e5 _ (by decide), pathify_frame hfeat _ (by decide),
      aliasStep_frame e4 _ _ _ _ (by decide) (by decide) (by decide)]
    exact he4
  rw [hd, dget_mkCanonical_rttm]
  simp [dgetD, he5]

theorem parse_entry_feature_default {env : Env} {e : Dict} {mf line : String} {d : Dict}
    (h : parse_entry env e mf line = .ok d)
    (n1 : dmem e "feature_file" = false) (n2 : dmem e "feature_filename" = false)
    (n3 : dmem e "feature_filepath" = false) :
    dget d "feature_file" = some jnull := by
  obtain ⟨e1, s, e3, e4, e5, hres, hs, hdur, htext, hrttm, hfeat, hd⟩ := parse_entry_inv h
  have g : ∀ key, key ≠ "audio_file" → key ≠ "audio_filename" → key ≠ "audio_filepath" →
      key ≠ "text" → key ≠ "text_filepath" → key ≠ "rttm_file" → key ≠ "rttm_filename" →
      key ≠ "rttm_filepath" → dget e4 key = dget e key := by
    intro key k1 k2 k3 k4 k5 k6 k7 k8
    rw [pathify_frame hrttm key k6, aliasStep_frame e3 _ _ _ key k6 k7 k8,
      textStep_frame htext key k4 k5, dget_dset_ne _ _ _ _ k1,
      resolveAudio_frame hres key k1 k2 k3]
  have m1 : dmem e4 "feature_file" = false := by
    rw [dmem_eq_false_iff, g _ (by decide) (by decide) (by decide) (by decide) (by decide)
      (by decide) (by decide) (by decide), ← dmem_eq_false_iff]
    exact n1
  have m2 : dmem e4 "feature_filename" = false := by
    rw [dmem_eq_false_iff, g _ (by decide) (by decide) (by decide) (by decide) (by decide)
      (by decide) (by decide) (by decide), ← dmem_eq_false_iff]
    exact n2
  have m3 : dmem e4 "feature_filepath" = false := by
    rw [dmem_eq_false_iff, g _ (by decide) (by decide) (by decide) (by decide) (by decide)
      (by decide) (by decide) (by decide), ← dmem_eq_false_iff]
    exact n3
  have ha : dget (aliasStep e4 "feature_file" "feature_filename" "feature_filepath")
      "feature_file" = some jnull := aliasStep_absent e4 _ _ _ m1 m2 m3
  have he5 : dget e5 "feature_file" = some jnull := by
    rw [(pathify_self hfeat).1 (by simp [dgetD, ha]), ha]
  have he5' : dget (isValidStep e5) "feature_file" = some jnull := by
    rw [isValidStep_frame e5 _ (by decide)]
    exact he5
  rw [hd, dget_mkCanonical_feature]
  simp [dgetD, he5']

theorem parse_entry_text_chain {env : Env} {e : Dict} {mf line : String} {d : Dict}
    (h : parse_entry env e mf line = .ok d) :
    (dmem e "text" = true → dget d "text" = dget e "text") ∧
    (dmem e "text" = false → ∀ fp, dget e "text_filepath" = some (jstr fp) →
      ∃ content, env.readFile fp = some content ∧
        dget d "text" = some (jstr (stripNewlines content))) ∧
    (dmem e "text" = false → dmem e "text_filepath" = false →
      dmem e "normalized_text" = true → dget d "text" = dget e "normalized_text") ∧
    (dmem e "text" = false → dmem e "text_filepath" = false →
      dmem e "normalized_text" = false → dget d "text" = some (jstr "")) := by
  obtain ⟨e1, s, e3, e4, e5, hres, hs, hdur, htext, hrttm, hfeat, hd⟩ := parse_entry_inv h
  have g2 : ∀ key, key ≠ "audio_file" → key ≠ "audio_filename" → key ≠ "audio_filepath" →
      dget (dset e1 "audio_file" (jstr (get_full_path env s mf 255))) key = dget e key := by
    intro key k1 k2 k3
    rw [dget_dset_ne _ _ _ _ k1, resolveAudio_frame hres key k1 k2 k3]
  have gt : dget (dset e1 "audio_file" (jstr (get_full_path env s mf 255))) "text"
      = dget e "text" := g2 _ (by decide) (by decide) (by decide)
  have gtf : dget (dset e1 "audio_file" (jstr (get_full_path env s mf 255))) "text_filepath"
      = dget e "text_filepath" := g2 _ (by decide) (by decide) (by decide)
  have gnt : dget (dset e1 "audio_file" (jstr (get_full_path env s mf 255))) "normalized_text"
      = dget e "normalized_text" := g2 _ (by decide) (by decide) (by decide)
  have gmt : dmem (dset e1 "audio_file" (jstr (get_full_path env s mf 255))) "text"
      = dmem e "text" := congrArg Option.isSome gt
  have gmtf : dmem (dset e1 "audio_file" (jstr (get_full_path env s mf 255))) "text_filepath"
      = dmem e "text_filepath" := congrArg Option.isSome gtf
  have gmnt : dmem (dset e1 "audio_file" (jstr (get_full_path env s mf 255)))
      "normalized_text" = dmem e "normalized_text" := congrArg Option.isSome gnt
  obtain ⟨t1, t2, t3, t4⟩ := textStep_text htext
  have gd : dget d "text" = some ((dget e3 "text").getD jnull) := by
    rw [hd, dget_mkCanonical_text]
    have gframe : dget (isValidStep e5) "text" = dget e3 "text" := by
      rw [isValidStep_frame e5 _ (by decide), pathify_frame hfeat _ (by decide),
        aliasStep_frame e4 _ _ _ _ (by decide) (by decide) (by decide),
        pathify_frame hrttm _ (by decide),
        aliasStep_frame e3 _ _ _ _ (by decide) (by decide) (by decide)]
    rw [show dgetD (isValidStep e5) "text" jnull
      = (dget (isValidStep e5) "text").getD jnull from rfl, gframe]
  refine ⟨?_, ?_, ?_, ?_⟩
  · intro hmem
    obtain ⟨v, hv⟩ := (dmem_true_iff e "text").mp hmem
    rw [gd, t1 (by rw [gmt]; exact hmem), gt, hv]
    rfl
  · intro hmem fp hfp
    obtain ⟨content, hc, hval⟩ := t2 (by rw [gmt]; exact hmem) fp (by rw [gtf]; exact hfp)
    exact ⟨content, hc, by rw [gd, hval]; rfl⟩
  · intro hmem hmemf hmemn
    obtain ⟨v, hv⟩ := (dmem_true_iff e "normalized_text").mp hmemn
    rw [gd, t3 (by rw [gmt]; exact hmem) (by rw [gmtf]; exact hmemf)
      (by rw [gmnt]; exact hmemn), gnt, hv]
    rfl
  · intro hmem hmemf hmemn
    rw [gd, t4 (by rw [gmt]; exact hmem) (by rw [gmtf]; exact hmemf)
      (by rw [gmnt]; exact hmemn)]
    rfl

theorem parse_entry_audio_value {env : Env} {e : Dict} {mf line : String} {d : Dict}
    {k s : String} (hfk : firstKey e audioAliases = some (k, jstr s))
    (h : parse_entry env e mf line = .ok d) :
    dget d "audio_file" = some (jstr (get_full_path env s mf 255)) := by
  obtain ⟨e1, s', e3, e4, e5, hres, hs, hdur, htext, hrttm, hfeat, hd⟩ := parse_entry_inv h
  obtain ⟨e1', hres', hget, _, _⟩ := @resolveAudio_firstKey e mf line k (jstr s) hfk
  have he : e1' = e1 := Except.ok.inj (hres'.symm.trans hres)
  rw [he] at hget
  have hss : s' = s := by
    rw [show dgetD e1 "audio_file" jnull = (dget e1 "audio_file").getD jnull from rfl,
      hget] at hs
    simpa using hs.symm
  subst hss
  have hv2 : dget (dset e1 "audio_file" (jstr (get_full_path env s' mf 255))) "audio_file"
      = some (jstr (get_full_path env s' mf 255)) := dget_dset_self _ _ _
  have hv3 : dget e3 "audio_file"
      = some (jstr (get_full_path env s' mf 255)) := by
    rw [textStep_frame htext _ (by decide) (by decide)]
    exact hv2
  have hv5 : dget (isValidStep e5) "audio_file"
      = some (jstr (get_full_path env s' mf 255)) := by
    rw [isValidStep_frame e5 _ (by decide), pathify_frame hfeat _ (by decide),
      aliasStep_frame e4 _ _ _ _ (by decide) (by decide) (by decide),
      pathify_frame hrttm _ (by decide),
      aliasStep_frame e3 _ _ _ _ (by decide) (by decide) (by decide)]
    exact hv3
  rw [hd, dget_mkCanonical_audio]
  simp [dgetD, hv5]

/-! ### Concrete environments and inputs for witnesses and counterexamples -/

/-- A minimal environment: empty filesystem, nothing on an object store,
no resolvable users, root working directory, no readable files. -/
def env0 : Env where
  isFile := fun _ => false
  isDatastorePath := fun _ => false
  datastoreLocal := fun s => s
  fetchManifest := fun s => s
  userHome := fun _ => none
  cwd := "/"
  readFile := fun _ => none
  fileLines := fun _ => []
  jsonParse := fun _ => none

/-- The raw line `{"audio_filepath": 5}` (a syntactically valid JSON
object whose audio-path value is a number and which lacks `duration`). -/
def lineC2 : String := "\x7b\"audio_filepath\": 5\x7d"

/-- `env0` plus a JSON decoder fixed on two lines, agreeing with
`json.loads`: `lineC2` decodes to `{audio_filepath: 5}` and `"nodur"`
stands for a line decoding to the empty object. -/
def envC2 : Env :=
  { env0 with
    jsonParse := fun l =>
      if l = lineC2 then some [("audio_filepath", jnum 5)]
      else if l = "nodur" then some []
      else none }

/-- The decoded entry of `lineC2`. -/
def eC2 : Dict := [("audio_filepath", jnum 5)]

/-- An entry carrying both `audio_filepath` and `audio_filename`. -/
def eC4 : Dict :=
  [("audio_filepath", jstr "/p/fp.wav"), ("audio_filename", jstr "/p/fn.wav"),
   ("duration", jnum 1)]

/-- A minimal valid entry. -/
def eMin : Dict := [("audio_file", jstr "/a.wav"), ("duration", jnum 1)]

/-- An entry whose text comes from a referenced file. -/
def eT : Dict :=
  [("audio_file", jstr "/a.wav"), ("duration", jnum 1), ("text_filepath", jstr "t.txt")]

/-- `env0` plus one readable text file whose contents span two lines. -/
def envT : Env :=
  { env0 with readFile := fun p => if p = "t.txt" then some "ab\ncd\n" else none }

/-- `env0` plus the single existing file `/data/wavs/a.wav`. -/
def envC7 : Env :=
  { env0 with isFile := fun s => decide (s = "/data/wavs/a.wav") }

/-- A reader environment: two local manifests `f1` (one line) and `f2`
(one line), each line decoding to a minimal valid entry. -/
def envR : Env :=
  { env0 with
    fileLines := fun f => if f = "f1" then ["l1"] else if f = "f2" then ["l2"] else [],
    jsonParse := fun l => if l = "l1" ∨ l = "l2" then some eMin else none }

/-- The canonical record produced from `eMin`, with a given id. -/
def recMin (j : Int) : Dict :=
  [("audio_file", jstr "/a.wav"), ("duration", jnum 1), ("text", jstr ""),
   ("rttm_file", jnull), ("feature_file", jnull), ("offset", jnull),
   ("speaker", jnull), ("orig_sr", jnull), ("token_labels", jnull),
   ("lang", jnull), ("is_valid", jnull), ("id", jnum j)]

/-- The exact stream `item_iter` yields over `envR`'s two manifests. -/
def itemsR : List Dict := [recMin 0, recMin 1]

/-! ### The claims -/

/-- C1: over any list of manifest files whose lines all normalize
successfully, the reader yields exactly one record per input line and
the `id` values are exactly `0..n-1` in yield order (file order, then
line order), `n` being the total line count.  Reproducibility on a rerun
is immediate: `item_iter` is a pure function of the environment and the
file list, so two runs over the same inputs are the same term. -/
theorem claim_C1 (env : Env) (files : List String) (items : List Dict)
    (h : item_iter env files = .ok items) :
    items.length = totalLines env files ∧
    items.map (fun d => dget d "id") =
      (List.range (totalLines env files)).map (fun i => some (jnum (Int.ofNat i))) := by
  obtain ⟨hlen, hmap⟩ := runFiles_spec env files 0 items h
  refine ⟨hlen, ?_⟩
  rw [hmap, hlen, List.range_eq_range']

/-- Witness for C1: a concrete two-manifest run yielding ids `0, 1`. -/
theorem claim_C1_witness :
    item_iter envR ["f1", "f2"] = .ok itemsR ∧
    itemsR.map (fun d => dget d "id") =
      (List.range (totalLines envR ["f1", "f2"])).map (fun i => some (jnum (Int.ofNat i))) :=
  ⟨rfl, (claim_C1 envR ["f1", "f2"] itemsR rfl).2⟩

/-- C2 (amended): the default normalizer raises `SchemaError` exactly
when a valid JSON object line lacks every recognized audio-path key, or
its first-match audio value is a string and `duration` is missing (a
non-string audio value fails inside `Path(...)` with a `TypeError`
before the duration check, so it never reaches the `SchemaError`); each
`SchemaError` message contains the manifest path and the raw line. -/
theorem claim_C2 (env : Env) (line mf : String) (e : Dict)
    (hjson : env.jsonParse line = some e) :
    ((∃ msg, parse_item env line mf = .error (.schemaError msg)) ↔
      (firstKey e audioAliases = none ∨
        (∃ k s, firstKey e audioAliases = some (k, jstr s) ∧ dmem e "duration" = false))) ∧
    (∀ msg, parse_item env line mf = .error (.schemaError msg) →
      (∃ a b, msg = a ++ mf ++ b) ∧ (∃ a b, msg = a ++ line ++ b)) := by
  have hred : parse_item env line mf = parse_entry env e mf line := by
    unfold parse_item
    rw [hjson]
  rw [hred]
  exact ⟨parse_entry_schema_iff env e mf line,
    fun msg hm => parse_entry_schema_msg hm⟩

/-- Counterexample to C2 as frozen: the valid JSON line
`{"audio_filepath": 5}` lacks the `duration` key, yet the normalizer
raises a `TypeError` (from `Path(5)`), not a `SchemaError`. -/
theorem claim_C2_counterexample :
    dmem eC2 "duration" = false ∧
    envC2.jsonParse lineC2 = some eC2 ∧
    parse_item envC2 lineC2 "m.json" = .error (.typeError "audio_file") ∧
    ∀ msg, parse_item envC2 lineC2 "m.json" ≠ .error (.schemaError msg) := by
  refine ⟨rfl, rfl, rfl, ?_⟩
  intro msg hmsg
  rw [show parse_item envC2 lineC2 "m.json" = .error (.typeError "audio_file") from rfl]
    at hmsg
  simp at hmsg

/-- Witness for C2: a line decoding to the empty object does raise
`SchemaError`. -/
theorem claim_C2_witness :
    ∃ msg, parse_item envC2 "nodur" "m.json" = .error (.schemaError msg) :=
  (claim_C2 envC2 "nodur" "m.json" [] rfl).1.mpr (Or.inl rfl)

/-- C3: the canonical audio path is resolved first-match-wins over the
ordered alias list `audio_filename`, `audio_filepath`, `audio_file`; a
matched alias other than `audio_file` itself is removed from the
working set; no alias present is the schema error; and the canonical
value is the path-resolved first-match value. -/
theorem claim_C3 (env : Env) (e : Dict) (mf line : String) :
    (firstKey e audioAliases = none →
      ∃ msg, resolveAudio e mf line = .error (.schemaError msg)) ∧
    (∀ k v, firstKey e audioAliases = some (k, v) →
      ∃ e1, resolveAudio e mf line = .ok e1 ∧ dget e1 "audio_file" = some v ∧
        (k = "audio_file" ∨ dget e1 k = none)) ∧
    (∀ k s d, firstKey e audioAliases = some (k, jstr s) →
      parse_entry env e mf line = .ok d →
      dget d "audio_file" = some (jstr (get_full_path env s mf 255))) := by
  refine ⟨fun h => ⟨_, resolveAudio_none h⟩, ?_, ?_⟩
  · intro k v h
    obtain ⟨e1, ha, hb, hc, _⟩ := @resolveAudio_firstKey e mf line k v h
    exact ⟨e1, ha, hb, hc⟩
  · intro k s d hfk hok
    exact parse_entry_audio_value hfk hok

/-- Witness for C3: concrete first-match resolution of `audio_filepath`. -/
theorem claim_C3_witness :
    ∃ e1, resolveAudio [("audio_filepath", jstr "/p.wav")] "m" "l" = .ok e1 ∧
      dget e1 "audio_file" = some (jstr "/p.wav") ∧
      ("audio_filepath" = "audio_file" ∨ dget e1 "audio_filepath" = none) :=
  (claim_C3 env0 [("audio_filepath", jstr "/p.wav")] "m" "l").2.1
    "audio_filepath" (jstr "/p.wav") rfl

/-- C4 (amended): a raw entry containing both `audio_filepath` and
`audio_filename` resolves the canonical audio path from the value of
`audio_filename` (the first alias in the code's chain), not
`audio_filepath`. -/
theorem claim_C4 (env : Env) (e : Dict) (mf line : String) (d : Dict) (s : String)
    (h1 : dget e "audio_filename" = some (jstr s))
    (_h2 : dmem e "audio_filepath" = true)
    (h : parse_entry env e mf line = .ok d) :
    dget d "audio_file" = some (jstr (get_full_path env s mf 255)) := by
  have hfk : firstKey e audioAliases = some ("audio_filename", jstr s) := by
    rw [show audioAliases = ["audio_filename", "audio_filepath", "audio_file"] from rfl,
      firstKey_cons, h1]
  exact parse_entry_audio_value hfk h

/-- Counterexample to C4 as frozen: with both keys present the canonical
audio path is `audio_filename`'s value, not `audio_filepath`'s. -/
theorem claim_C4_counterexample :
    ∃ d, parse_entry env0 eC4 "m.json" "line" = .ok d ∧
      dget d "audio_file" = some (jstr "/p/fn.wav") ∧
      dget d "audio_file" ≠ some (jstr "/p/fp.wav") :=
  ⟨_, rfl, rfl, by decide⟩

/-- Witness for C4 (amended) at the same concrete entry. -/
theorem claim_C4_witness :
    ∃ d, parse_entry env0 eC4 "m" "l" = .ok d ∧
      dget d "audio_file" = some (jstr (get_full_path env0 "/p/fn.wav" "m" 255)) :=
  ⟨_, rfl, claim_C4 env0 eC4 "m" "l" _ "/p/fn.wav" rfl rfl rfl⟩

/-- C5: every record the default normalizer produces (with the reader's
id assignment) carries exactly the canonical key set, in order, with
`id` appended by the reader; unrecognized raw keys are dropped (the
record's key list is fixed independent of the input); and every optional
field absent from the input is present with an explicit null. -/
theorem claim_C5 (env : Env) :
    (∀ files items item, item_iter env files = .ok items → item ∈ items →
      item.map Prod.fst = canonKeys ++ ["id"]) ∧
    (∀ e mf line d, parse_entry env e mf line = .ok d →
      d.map Prod.fst = canonKeys ∧
      (dmem e "rttm_file" = false → dmem e "rttm_filename" = false →
        dmem e "rttm_filepath" = false → dget d "rttm_file" = some jnull) ∧
      (dmem e "feature_file" = false → dmem e "feature_filename" = false →
        dmem e "feature_filepath" = false → dget d "feature_file" = some jnull) ∧
      (dmem e "offset" = false → dget d "offset" = some jnull) ∧
      (dmem e "speaker" = false → dget d "speaker" = some jnull) ∧
      (dmem e "orig_sample_rate" = false → dget d "orig_sr" = some jnull) ∧
      (dmem e "token_labels" = false → dget d "token_labels" = some jnull) ∧
      (dmem e "lang" = false → dget d "lang" = some jnull) ∧
      (dmem e "is_valid" = false → dget d "is_valid" = some jnull)) := by
  constructor
  · intro files items item hrun hmem
    obtain ⟨x, j, hx⟩ := runFiles_shape env files 0 items hrun item hmem
    rw [hx, keys_dset_of_not_mem _ _ _ (dmem_mkCanonical_id x), keys_mkCanonical]
  · intro e mf line d h
    obtain ⟨e1, s, e3, e4, e5, _, _, _, _, _, _, hd⟩ := parse_entry_inv h
    refine ⟨by rw [hd, keys_mkCanonical], parse_entry_rttm_default h,
      parse_entry_feature_default h, ?_, ?_, ?_, ?_, ?_, ?_⟩
    · intro hn
      obtain ⟨x, hdx, hval⟩ := parse_entry_passthrough h "offset" (by decide) (by decide)
        (by decide) (by decide) (by decide) (by decide) (by decide) (by decide) (by decide)
        (by decide) (by decide)
      rw [hdx, dget_mkCanonical_offset, show dgetD x "offset" jnull
        = (dget x "offset").getD jnull from rfl, hval, (dmem_eq_false_iff e "offset").mp hn]
      rfl
    · intro hn
      obtain ⟨x, hdx, hval⟩ := parse_entry_passthrough h "speaker" (by decide) (by decide)
        (by decide) (by decide) (by decide) (by decide) (by decide) (by decide) (by decide)
        (by decide) (by decide)
      rw [hdx, dget_mkCanonical_speaker, show dgetD x "speaker" jnull
        = (dget x "speaker").getD jnull from rfl, hval, (dmem_eq_false_iff e "speaker").mp hn]
      rfl
    · intro hn
      obtain ⟨x, hdx, hval⟩ := parse_entry_passthrough h "orig_sample_rate" (by decide)
        (by decide) (by decide) (by decide) (by decide) (by decide) (by decide) (by decide)
        (by decide) (by decide) (by decide)
      rw [hdx, dget_mkCanonical_orig_sr, show dgetD x "orig_sample_rate" jnull
        = (dget x "orig_sample_rate").getD jnull from rfl, hval,
        (dmem_eq_false_iff e "orig_sample_rate").mp hn]
      rfl
    · intro hn
      obtain ⟨x, hdx, hval⟩ := parse_entry_passthrough h "token_labels" (by decide)
        (by decide) (by decide) (by decide) (by decide) (by decide) (by decide) (by decide)
        (by decide) (by decide) (by decide)
      rw [hdx, dget_mkCanonical_token_labels, show dgetD x "token_labels" jnull
        = (dget x "token_labels").getD jnull from rfl, hval,
        (dmem_eq_false_iff e "token_labels").mp hn]
      rfl
    · intro hn
      obtain ⟨x, hdx, hval⟩ := parse_entry_passthrough h "lang" (by decide) (by decide)
        (by decide) (by decide) (by decide) (by decide) (by decide) (by decide) (by decide)
        (by decide) (by decide)
      rw [hdx, dget_mkCanonical_lang, show dgetD x "lang" jnull
        = (dget x "lang").getD jnull from rfl, hval, (dmem_eq_false_iff e "lang").mp hn]
      rfl
    · intro hn
      obtain ⟨x, hdx, hval⟩ := parse_entry_passthrough h "is_valid" (by decide) (by decide)
        (by decide) (by decide) (by decide) (by decide) (by decide) (by decide) (by decide)
        (by decide) (by decide)
      rw [hdx, dget_mkCanonical_is_valid, show dgetD x "is_valid" jnull
        = (dget x "is_valid").getD jnull from rfl, hval,
        (dmem_eq_false_iff e "is_valid").mp hn]
      rfl

/-- Witness for C5: concrete reader output keys and a concrete null
default. -/
theorem claim_C5_witness :
    (∀ item ∈ itemsR, item.map Prod.fst = canonKeys ++ ["id"]) ∧
    (∃ d, parse_entry env0 eMin "m" "l" = .ok d ∧ dget d "offset" = some jnull) := by
  constructor
  · intro item hm
    exact (claim_C5 envR).1 ["f1", "f2"] itemsR item rfl hm
  · refine ⟨_, rfl, ?_⟩
    exact ((claim_C5 env0).2 eMin "m" "l" _ rfl).2.2.2.1 rfl

/-- C6: the canonical `text` field follows the chain `text` as-is, else
the referenced `text_filepath` contents with all newlines removed, else
`normalized_text`, else the empty string. -/
theorem claim_C6 (env : Env) (e : Dict) (mf line : String) (d : Dict)
    (h : parse_entry env e mf line = .ok d) :
    (dmem e "text" = true → dget d "text" = dget e "text") ∧
    (dmem e "text" = false → ∀ fp, dget e "text_filepath" = some (jstr fp) →
      ∃ content, env.readFile fp = some content ∧
        dget d "text" = some (jstr (stripNewlines content))) ∧
    (dmem e "text" = false → dmem e "text_filepath" = false →
      dmem e "normalized_text" = true → dget d "text" = dget e "normalized_text") ∧
    (dmem e "text" = false → dmem e "text_filepath" = false →
      dmem e "normalized_text" = false → dget d "text" = some (jstr "")) :=
  parse_entry_text_chain h

/-- Witness for C6: the referenced file `"ab\ncd\n"` yields text `"abcd"`. -/
theorem claim_C6_witness :
    ∃ d, parse_entry envT eT "m" "l" = .ok d ∧ dget d "text" = some (jstr "abcd") := by
  refine ⟨_, rfl, ?_⟩
  obtain ⟨content, hc, hv⟩ := (claim_C6 envT eT "m" "l" _ rfl).2.1 rfl "t.txt" rfl
  have hcontent : content = "ab\ncd\n" :=
    (Option.some.inj (show (some "ab\ncd\n" : Option String) = some content from hc)).symm
  subst hcontent
  rw [hv]
  rfl

/-- C7: with the manifest at `/data/manifest.json` and candidate
`"wavs/a.wav"`, where no file exists at the literal relative path but
`/data/wavs/a.wav` exists (and neither location is an object-store
reference), the resolver returns the absolute path `/data/wavs/a.wav`. -/
theorem claim_C7 (env : Env)
    (h1 : env.isFile "wavs/a.wav" = false)
    (h2 : env.isFile "/data/wavs/a.wav" = true)
    (h3 : env.isDatastorePath "/data/manifest.json" = false)
    (h4 : env.isDatastorePath "/data/wavs/a.wav" = false) :
    get_full_path env "wavs/a.wav" "/data/manifest.json" 255 = "/data/wavs/a.wav" := by
  have e1 : pathNorm "wavs/a.wav" = "wavs/a.wav" := rfl
  have e2 : parentAsPosix "/data/manifest.json" = "/data" := rfl
  have e3 : osJoin "/data" "wavs/a.wav" = "/data/wavs/a.wav" := rfl
  have e4 : pathNorm "/data/wavs/a.wav" = "/data/wavs/a.wav" := rfl
  have e5 : isAbs "/data/wavs/a.wav" = true := rfl
  simp +decide [get_full_path, h1, h2, h3, h4, absoluteStr, e1, e2, e3, e4, e5]

/-- Witness for C7 at the concrete one-file environment. -/
theorem claim_C7_witness :
    get_full_path envC7 "wavs/a.wav" "/data/manifest.json" 255 = "/data/wavs/a.wav" :=
  claim_C7 envC7 rfl rfl rfl rfl

/-- C8 (amended): when the normalized candidate's length reaches the
length limit, the resolver returns the candidate after `Path`
normalization and leading-`~` expansion — not the candidate verbatim —
regardless of any file's existence. -/
theorem claim_C8 (env : Env) (c mf : String) (lim : Nat)
    (h : lim ≤ (pathNorm c).length) :
    get_full_path env c mf lim = expanduser env (pathNorm c) := by
  simp only [get_full_path]
  rw [if_neg (fun hcond => absurd hcond.1 (by omega))]

/-- Counterexample to C8 as frozen: an over-limit candidate containing a
doubled separator is not returned unchanged. -/
theorem claim_C8_counterexample :
    5 < ("/a//b.wav" : String).length ∧
    get_full_path env0 "/a//b.wav" "m.json" 5 = "/a/b.wav" ∧
    get_full_path env0 "/a//b.wav" "m.json" 5 ≠ "/a//b.wav" := by
  refine ⟨by decide, rfl, ?_⟩
  intro hcontra
  rw [show get_full_path env0 "/a//b.wav" "m.json" 5 = "/a/b.wav" from rfl] at hcontra
  exact absurd hcontra (by decide)

/-- Witness for C8 (amended) at a concrete over-limit candidate. -/
theorem claim_C8_witness :
    5 ≤ (pathNorm "/a//b.wav").length ∧
    get_full_path env0 "/a//b.wav" "m.json" 5 = expanduser env0 (pathNorm "/a//b.wav") :=
  ⟨by decide, claim_C8 env0 "/a//b.wav" "m.json" 5 (by decide)⟩

/-- C9: the resolver is idempotent (with the filesystem and environment
fixed): resolving its own output returns that output, for any
environment whose resolvable user homes are absolute normalized paths
and whose working directory is absolute — always true of a real
process.  Already-resolved absolute paths are fixed points as the
absolute-branch instance of this equation. -/
theorem claim_C9 (env : Env)
    (hhome : ∀ u h, env.userHome u = some h → isAbs h = true ∧ pathNorm h = h)
    (hcwd : isAbs env.cwd = true) (c mf : String) (lim : Nat) :
    get_full_path env (get_full_path env c mf lim) mf lim =
      get_full_path env c mf lim :=
  get_full_path_idem env hhome hcwd c mf lim

/-- Witness for C9 at the concrete environment (no resolvable users,
root working directory). -/
theorem claim_C9_witness :
    get_full_path env0 (get_full_path env0 "wavs/a.wav" "/data/m.json" 255)
      "/data/m.json" 255 = get_full_path env0 "wavs/a.wav" "/data/m.json" 255 :=
  claim_C9 env0 (fun _ _ hh => Option.noConfusion hh) rfl "wavs/a.wav" "/data/m.json" 255

/-- C10: the resolver converts the candidate to a `Path` before any
branch and `expanduser`s every non-cache-hit return, so an absolute
candidate comes back as the lexically normalized, `~`-expanded string
rather than verbatim; concretely `"/abs//a.wav"` comes back as
`"/abs/a.wav"` (see the witness). -/
theorem claim_C10 (env : Env) (c mf : String) (lim : Nat)
    (h : isAbs (pathNorm c) = true) :
    get_full_path env c mf lim = expanduser env (pathNorm c) := by
  simp only [get_full_path]
  rw [if_neg (fun hcond => by rw [h] at hcond; exact absurd hcond.2.2 (by simp))]

/-- Witness for C10: the doubled separator of `"/abs//a.wav"` is
collapsed, so the returned string differs from the candidate. -/
theorem claim_C10_witness :
    get_full_path env0 "/abs//a.wav" "m.json" 255 = "/abs/a.wav" ∧
    "/abs/a.wav" ≠ "/abs//a.wav" :=
  ⟨(claim_C10 env0 "/abs//a.wav" "m.json" 255 rfl).trans (by rfl), by decide⟩
